import Mathlib

/-!
Verification of the EDN parser and deserializer of the `edn-rs` repository.

The Rust sources `src/deserialize/parse.rs` and `src/deserialize/mod.rs` are
embedded shallowly below.  Rust character iterators
(`std::iter::Enumerate<std::str::Chars>`) are modelled as lists of
`(index, character)` pairs; mutation of a `&mut` iterator is modelled by
explicitly returning the remaining list.  Machine integers are modelled as
`Nat`/`Int` with explicit `2 ^ 64`/`2 ^ 63`/`2 ^ 32` bounds.  Fallible Rust
functions returning `Result` are modelled with `Except`.

The recursive-descent parser is mutually recursive in Rust; to keep every
definition executable by the kernel it is embedded as one structurally
recursive interpreter over an explicit call marker (`PCmd`), with a fuel
argument that strictly decreases on every call.  Fuel is an embedding
artifact only: the top-level entry point supplies fuel far larger than the
number of calls the Rust parser can make on the given input (each call
either consumes input, or moves in a bounded number of steps to a call
that does), so the out-of-fuel branch is unreachable from the public entry
points.

Unicode caveat: Rust's `char::is_numeric`, `char::is_whitespace` and
`str::to_lowercase` act on full Unicode.  `is_whitespace` is embedded with
the complete White_Space list; `is_numeric` and `to_lowercase` are
embedded with their exact behaviour on the ASCII range (all concrete
inputs appearing in the theorems below are ASCII).
-/

namespace EdnRs

/-- A Rust `Enumerate<Chars>` iterator state: the characters not yet
consumed, each paired with its character index in the original input. -/
abbrev Toks : Type := List (Nat × Char)

/-- The error type of the `edn` module.  Modelled from the spec: §7 gives
the taxonomy Parse / Deserialize / Iter, each carrying a human-readable
message (the `Error` enum lives in `edn/mod.rs`, which is not under
`src/`; its three variants are the ones constructed throughout
`parse.rs` and `deserialize/mod.rs`). -/
inductive Error where
  | ParseEdn (msg : String)
  | Deserialize (msg : String)
  | Iter (msg : String)
deriving Repr, DecidableEq

/-- The EDN value tree.  Modelled from the spec §3 (the `Edn` enum of
`edn/mod.rs`, which is not under `src/`), with the payloads used by
`parse.rs`: `UInt` carries a `u64` (a `Nat` kept below `2 ^ 64` by the
parser), `Int` an `i64`, `Map`/`NamespacedMap` carry the contents of a
`BTreeMap<String, Edn>` as an ascending association list, `Set` the
contents of a `BTreeSet<Edn>` as an ascending duplicate-free list.
`Double` holds the accepted numeric literal text: bit-level `f64`
semantics are not shallowly embeddable, and no claim below depends on the
numeric value of a double, only on which variant is produced. -/
inductive Edn where
  | Nil
  | Bool (b : Bool)
  | Str (s : String)
  | Char (c : Char)
  | Symbol (s : String)
  | Key (s : String)
  | UInt (n : Nat)
  | Int (n : Int)
  | Double (text : String)
  | Rational (s : String)
  | Inst (s : String)
  | Uuid (s : String)
  | Tagged (tag : String) (v : Edn)
  | Vector (l : List Edn)
  | List (l : List Edn)
  | Set (l : List Edn)
  | Map (m : List (String × Edn))
  | NamespacedMap (ns : String) (m : List (String × Edn))
  | Empty
deriving Repr

/-! ## Character-level helpers (Rust std semantics) -/

/-- `const DELIMITERS: [char; 8]` from `parse.rs` line 8. -/
def DELIMITERS : List Char := [',', ']', '}', ')', ';', '(', '[', '{']

/-- Rust `char::is_whitespace`: the Unicode White_Space property
(complete list of the 25 code points). -/
def rustIsWhitespace (c : Char) : Bool :=
  [0x09, 0x0A, 0x0B, 0x0C, 0x0D, 0x20, 0x85, 0xA0, 0x1680,
   0x2000, 0x2001, 0x2002, 0x2003, 0x2004, 0x2005, 0x2006, 0x2007,
   0x2008, 0x2009, 0x200A, 0x2028, 0x2029, 0x202F, 0x205F, 0x3000].contains c.toNat

/-- Token-continuation test used by `read_symbol`, `read_number` and
`read_bool_or_nil`: neither whitespace nor a delimiter. -/
def tokenOk (c : Char) : Bool := !rustIsWhitespace c && !DELIMITERS.contains c

/-- Keyword-run test of `read_key_or_nsmap`: not whitespace and none of
`,` `)` `]` `}` `;`. -/
def keyOk (c : Char) : Bool :=
  !rustIsWhitespace c && c ≠ ',' && c ≠ ')' && c ≠ ']' && c ≠ '}' && c ≠ ';'

/-- Tag-run test of `read_tagged`: not whitespace and not a comma. -/
def tagOk (c : Char) : Bool := !rustIsWhitespace c && c ≠ ','

/-- The `skip_while` test of the `inst`/`uuid` readers: a quote or
whitespace. -/
def quoteOrWs (x : Nat × Char) : Bool := x.2 = '\"' ∨ rustIsWhitespace x.2

/-- The `take_while` test of the `inst`/`uuid` readers: not a quote. -/
def notQuote (c : Char) : Bool := c ≠ '\"'

/-- ASCII decimal digit test (`0`..`9`, by code point). -/
def asciiDigit (c : Char) : Bool := 48 ≤ c.toNat && c.toNat ≤ 57

/-- Rust `char::is_numeric` restricted to the ASCII range, where it holds
exactly for the decimal digits (outside ASCII Rust also accepts other
Unicode number category code points; no such character appears in the
claims or in the concrete inputs below). -/
def rustIsNumeric (c : Char) : Bool := asciiDigit c

/-- Rust `str::to_lowercase` restricted to its ASCII behaviour
(`A`..`Z` map to `a`..`z`, every other character is unchanged). -/
def asciiToLower (c : Char) : Char :=
  if 65 ≤ c.toNat ∧ c.toNat ≤ 90 then Char.ofNat (c.toNat + 32) else c

/-- Rust `str::to_uppercase` restricted to its ASCII behaviour. -/
def asciiToUpper (c : Char) : Char :=
  if 97 ≤ c.toNat ∧ c.toNat ≤ 122 then Char.ofNat (c.toNat - 32) else c

/-- Rust `char::to_digit` without its radix bound: digit value of
`0`-`9`, `a`-`z`, `A`-`Z` (by code point). -/
def charDigit (c : Char) : Option Nat :=
  if 48 ≤ c.toNat ∧ c.toNat ≤ 57 then some (c.toNat - 48)
  else if 97 ≤ c.toNat ∧ c.toNat ≤ 122 then some (c.toNat - 87)
  else if 65 ≤ c.toNat ∧ c.toNat ≤ 90 then some (c.toNat - 55)
  else none

/-- Rust `char::to_digit(radix)`: the digit value when it is below the
radix. -/
def charToDigit (c : Char) (radix : Nat) : Option Nat :=
  match charDigit c with
  | some d => if d < radix then some d else none
  | none => none

/-- Value of a digit string in the given base, `none` if any character is
not a valid digit for that base. -/
def digitsVal (radix : Nat) : List Char → Option Nat → Option Nat
  | _, none => none
  | [], some acc => some acc
  | c :: rest, some acc =>
    match charToDigit c radix with
    | some d => digitsVal radix rest (some (acc * radix + d))
    | none => digitsVal radix rest none

/-- Rust `u64::from_str_radix`, by its documented semantics: an optional
leading `+`, then a non-empty run of digits of the given base; errors
(modelled as `none`) on an empty digit run, an invalid digit (including a
leading `-`, which unsigned parsing rejects), or a value not fitting in
64 bits.  Rust checks overflow with per-digit checked arithmetic; since
the accumulated value is monotone in the digits consumed, that is
equivalent to the final-value bound used here. -/
def u64FromStrRadix (s : List Char) (radix : Nat) : Option Nat :=
  match s with
  | [] => none
  | c :: cs =>
    let ds := if c = '+' then cs else c :: cs
    if ds.isEmpty then none
    else match digitsVal radix ds (some 0) with
      | some v => if v < 2 ^ 64 then some v else none
      | none => none

/-- Digit-run part of `i64::from_str_radix` after the sign has been
stripped. -/
def i64Digits (radix : Nat) (neg : Bool) (ds : List Char) : Option Int :=
  if ds.isEmpty then none
  else match digitsVal radix ds (some 0) with
    | some v =>
      if neg then (if v ≤ 2 ^ 63 then some (-(v : Int)) else none)
      else (if v ≤ 2 ^ 63 - 1 then some (v : Int) else none)
    | none => none

/-- Rust `i64::from_str_radix`, by its documented semantics: an optional
sign, a non-empty digit run, and the signed 64-bit range bound. -/
def i64FromStrRadix (s : List Char) (radix : Nat) : Option Int :=
  match s with
  | [] => none
  | c :: cs =>
    if c = '+' then i64Digits radix false cs
    else if c = '-' then i64Digits radix true cs
    else i64Digits radix false (c :: cs)

/-- Rust `str::parse::<u32>` together with the exact `ParseIntError`
display messages (used by `read_number` when the radix prefix fails to
parse).  Per-character processing order follows the std implementation:
the invalid-digit check precedes the overflow check for each character,
and the first failure wins. -/
def u32ParseErr (s : List Char) : Except String Nat :=
  match s with
  | [] => .error "cannot parse integer from empty string"
  | c :: cs =>
    let ds := if c = '+' then cs else c :: cs
    if ds.isEmpty then .error "cannot parse integer from empty string"
    else go 0 ds
where
  go (acc : Nat) : List Char → Except String Nat
    | [] => .ok acc
    | c :: rest =>
      match charToDigit c 10 with
      | none => .error "invalid digit found in string"
      | some d =>
        if acc * 10 + d < 2 ^ 32 then go (acc * 10 + d) rest
        else .error "number too large to fit in target type"

/-- Exponent suffix of the Rust `f64::from_str` grammar:
empty, or `e`/`E`, an optional sign, and a non-empty digit run. -/
def floatExpOk : List Char → Bool
  | [] => true
  | c :: r =>
    if c = 'e' ∨ c = 'E' then
      let r := match r with
        | '+' :: r' => r'
        | '-' :: r' => r'
        | r' => r'
      !r.isEmpty && r.all asciiDigit
    else false

/-- Rust `str::parse::<f64>` acceptance, by the documented grammar:
`Sign? ( inf | infinity | nan | Number )` (case-insensitive specials)
with `Number ::= Digit+ | Digit+ . Digit* | Digit* . Digit+`, optionally
followed by an exponent. -/
def floatOk (s : List Char) : Bool :=
  let cs := match s with
    | '+' :: r => r
    | '-' :: r => r
    | r => r
  let lower := cs.map asciiToLower
  if lower = "inf".data ∨ lower = "infinity".data ∨ lower = "nan".data then true
  else
    let d1 := cs.takeWhile asciiDigit
    let r1 := cs.dropWhile asciiDigit
    match r1 with
    | '.' :: r2 =>
      let d2 := r2.takeWhile asciiDigit
      let r3 := r2.dropWhile asciiDigit
      if d1.isEmpty && d2.isEmpty then false else floatExpOk r3
    | _ => if d1.isEmpty then false else floatExpOk r1

/-- Rust `str::split('/')` on the character list. -/
def splitOnSlash : List Char → List (List Char)
  | [] => [[]]
  | x :: rest =>
    match splitOnSlash rest with
    | h :: t => if x = '/' then [] :: h :: t else (x :: h) :: t
    | [] => if x = '/' then [[], []] else [[x]]

/-! ## Iterator-combinator helpers

Rust's `Iterator::take_while` on a `&mut` iterator consumes the element
that first fails the predicate (it is pulled and dropped); `skip_while`
consumes the skipped elements and hands the first failing element to its
downstream consumer; `Iterator::find` consumes up to and including the
first match. -/

/-- `iter.take_while(p)` drained on a live iterator: the collected
characters and the remaining iterator (the terminating element, if any,
is consumed and dropped). -/
def takeWhileDrain (p : Char → Bool) : Toks → List Char × Toks
  | [] => ([], [])
  | (_, c) :: rest =>
    if p c then
      let (t, r) := takeWhileDrain p rest
      (c :: t, r)
    else ([], rest)

/-- `iter.find(|c| c.1 == target)` on a live iterator: the remaining
iterator after consuming up to and including the first match. -/
def findCharDrain (target : Char) : Toks → Toks
  | [] => []
  | (_, c) :: rest => if c = target then rest else findCharDrain target rest

/-! ## Display and ordering of `Edn`

`read_map`/`read_namespaced_map` key maps by `key.to_string()` (the
`Display` of `Edn`), and `read_set` inserts into a `BTreeSet<Edn>` (the
`Ord` of `Edn`).  Both implementations live in the missing `edn/mod.rs`
and are modelled from the spec: §4.6 (canonical round-tripping Display;
strings display with surrounding quotes) together with the Display
output pinned by the tests of `parse.rs` (`Key` and `Symbol` display as
their text, `UInt 0` as `0`, `Tagged t v` as `#t ` followed by the
display of `v`), and §3 (total order on heterogeneous values; for the
`Double` text payload the order of the literal text stands in for the
bit-pattern order, which no claim depends on).

Both are recursions over the nested `Edn` tree; they are embedded as
structurally recursive interpreters on a fuel that strictly exceeds the
tree depth at every call site. -/

/-- Argument marker for the Display interpreter: a value, a list of
values to join with spaces, or map entries to join. -/
inductive TsArg where
  | one (e : Edn)
  | seq (l : List Edn)
  | entries (m : List (String × Edn))

/-- Fueled Display interpreter; see the section comment above.
Modelled from the spec (the `impl Display for Edn` of `edn/mod.rs` is
not under `src/`). -/
def tsRun : Nat → TsArg → String
  | 0, _ => ""
  | fuel + 1, .one e =>
    match e with
    | .Nil => "nil"
    | .Bool b => if b then "true" else "false"
    | .Str s => "\"" ++ s ++ "\""
    | .Char c => "\\" ++ String.singleton c
    | .Symbol s => s
    | .Key s => s
    | .UInt n => s!"{n}"
    | .Int n => s!"{n}"
    | .Double t => t
    | .Rational s => s
    | .Inst s => "#inst \"" ++ s ++ "\""
    | .Uuid s => "#uuid \"" ++ s ++ "\""
    | .Tagged t v => "#" ++ t ++ " " ++ tsRun fuel (.one v)
    | .Vector l => "[" ++ tsRun fuel (.seq l) ++ "]"
    | .List l => "(" ++ tsRun fuel (.seq l) ++ ")"
    | .Set l => "#\x7b" ++ tsRun fuel (.seq l) ++ "\x7d"
    | .Map m => "\x7b" ++ tsRun fuel (.entries m) ++ "\x7d"
    | .NamespacedMap ns m => ":" ++ ns ++ "\x7b" ++ tsRun fuel (.entries m) ++ "\x7d"
    | .Empty => ""
  | fuel + 1, .seq l =>
    match l with
    | [] => ""
    | [e] => tsRun fuel (.one e)
    | e :: rest => tsRun fuel (.one e) ++ " " ++ tsRun fuel (.seq rest)
  | fuel + 1, .entries m =>
    match m with
    | [] => ""
    | [(k, v)] => k ++ " " ++ tsRun fuel (.one v)
    | (k, v) :: rest => k ++ " " ++ tsRun fuel (.one v) ++ ", " ++ tsRun fuel (.entries rest)

/-- Lexicographic comparison of strings by code point (equal to Rust's
byte-wise `Ord` on `String`, since UTF-8 preserves code-point order). -/
def strCompare : List Char → List Char → Ordering
  | [], [] => .eq
  | [], _ :: _ => .lt
  | _ :: _, [] => .gt
  | a :: as', b :: bs' =>
    if a < b then .lt
    else if b < a then .gt
    else strCompare as' bs'

/-- Constructor rank used by the modelled total order on `Edn`. -/
def ednRank : Edn → Nat
  | .Nil => 0
  | .Bool _ => 1
  | .Str _ => 2
  | .Char _ => 3
  | .Symbol _ => 4
  | .Key _ => 5
  | .UInt _ => 6
  | .Int _ => 7
  | .Double _ => 8
  | .Rational _ => 9
  | .Inst _ => 10
  | .Uuid _ => 11
  | .Tagged _ _ => 12
  | .Vector _ => 13
  | .List _ => 14
  | .Set _ => 15
  | .Map _ => 16
  | .NamespacedMap _ _ => 17
  | .Empty => 18

/-- Argument marker for the ordering interpreter. -/
inductive CmpArg where
  | one (a b : Edn)
  | seq (as' bs' : List Edn)
  | entries (ms ns' : List (String × Edn))

/-- Fueled total order on `Edn` values: constructor rank first, then the
payloads lexicographically.  Modelled from the spec (§3 requires a total
order on heterogeneous values; the `impl Ord for Edn` of `edn/mod.rs` is
not under `src/`).  Only `read_set` depends on it, and no claim below
constrains the particular order of set elements. -/
def cmpRun : Nat → CmpArg → Ordering
  | 0, _ => .eq
  | fuel + 1, .one a b =>
    match compare (ednRank a) (ednRank b) with
    | .lt => .lt
    | .gt => .gt
    | .eq =>
      match a, b with
      | .Bool x, .Bool y => compare x y
      | .Str x, .Str y => strCompare x.data y.data
      | .Char x, .Char y => compare x y
      | .Symbol x, .Symbol y => strCompare x.data y.data
      | .Key x, .Key y => strCompare x.data y.data
      | .UInt x, .UInt y => compare x y
      | .Int x, .Int y => compare x y
      | .Double x, .Double y => strCompare x.data y.data
      | .Rational x, .Rational y => strCompare x.data y.data
      | .Inst x, .Inst y => strCompare x.data y.data
      | .Uuid x, .Uuid y => strCompare x.data y.data
      | .Tagged tx x, .Tagged ty y =>
        match strCompare tx.data ty.data with
        | .lt => .lt
        | .gt => .gt
        | .eq => cmpRun fuel (.one x y)
      | .Vector x, .Vector y => cmpRun fuel (.seq x y)
      | .List x, .List y => cmpRun fuel (.seq x y)
      | .Set x, .Set y => cmpRun fuel (.seq x y)
      | .Map x, .Map y => cmpRun fuel (.entries x y)
      | .NamespacedMap nx x, .NamespacedMap ny y =>
        match strCompare nx.data ny.data with
        | .lt => .lt
        | .gt => .gt
        | .eq => cmpRun fuel (.entries x y)
      | _, _ => .eq
  | fuel + 1, .seq as' bs' =>
    match as', bs' with
    | [], [] => .eq
    | [], _ :: _ => .lt
    | _ :: _, [] => .gt
    | a :: as'', b :: bs'' =>
      match cmpRun fuel (.one a b) with
      | .lt => .lt
      | .gt => .gt
      | .eq => cmpRun fuel (.seq as'' bs'')
  | fuel + 1, .entries ms ns' =>
    match ms, ns' with
    | [], [] => .eq
    | [], _ :: _ => .lt
    | _ :: _, [] => .gt
    | (ka, va) :: ms', (kb, vb) :: ns'' =>
      match strCompare ka.data kb.data with
      | .lt => .lt
      | .gt => .gt
      | .eq =>
        match cmpRun fuel (.one va vb) with
        | .lt => .lt
        | .gt => .gt
        | .eq => cmpRun fuel (.entries ms' ns'')

/-- `BTreeMap<String, Edn>::insert`: insert into the ascending
association list, replacing the value when the key is already bound. -/
def btreeInsert (m : List (String × Edn)) (k : String) (v : Edn) : List (String × Edn) :=
  match m with
  | [] => [(k, v)]
  | (k', v') :: rest =>
    match strCompare k.data k'.data with
    | .lt => (k, v) :: (k', v') :: rest
    | .eq => (k, v) :: rest
    | .gt => (k', v') :: btreeInsert rest k v

/-- `BTreeSet<Edn>::insert` (with a comparison fuel): insert into the
ascending list, keeping an already present element. -/
def setInsert (fuel : Nat) (l : List Edn) (e : Edn) : List Edn :=
  match l with
  | [] => [e]
  | x :: rest =>
    match cmpRun fuel (.one e x) with
    | .lt => e :: x :: rest
    | .eq => x :: rest
    | .gt => x :: setInsert fuel rest e

/-! ## Leaf readers (`parse.rs`)

Each reader is invoked with the first character of its token already
consumed by the dispatcher, exactly as in the Rust source. -/

/-- The recognized escape characters `\t \r \n \\ \"` and their
unescaped value. -/
def escChar : Char → Option Char
  | 't' => some '\t'
  | 'r' => some '\r'
  | 'n' => some '\n'
  | '\\' => some '\\'
  | '\"' => some '\"'
  | _ => none

/-- The `try_fold` loop of `read_str` (`parse.rs` lines 96-135): the
accumulator is the pair (did the previous character start an escape,
unescaped content so far); an unescaped `"` finishes the string, reaching
end of input first is the "Unterminated string" error. -/
def readStrGo (lastWasEscape : Bool) (acc : String) : Toks → Except Error (Edn × Toks)
  | [] => .error (.ParseEdn "Unterminated string")
  | (_, c) :: rest =>
    if lastWasEscape then
      -- Supported escape characters, per the EDN spec: the Rust
      -- `match c` pushing `\t`/`\r`/`\n`/`\\`/`"` and erring otherwise
      -- (`escChar` is that five-arm match)
      match escChar c with
      | some u => readStrGo false (acc.push u) rest
      | none => .error (.ParseEdn s!"Invalid escape sequence \\{c}")
    else if c = '\"' then .ok (.Str acc, rest)
    else if c = '\\' then readStrGo true acc rest
    else readStrGo false (acc.push c) rest

/-- `read_str` (`parse.rs` lines 96-135). -/
def readStr (chars : Toks) : Except Error (Edn × Toks) :=
  readStrGo false "" chars

/-- The `c_len` computation of `read_symbol` (`parse.rs` lines 138-142):
the number of further characters read, counted on a clone: characters
while the running index does not exceed 200 and the character is neither
whitespace nor a delimiter. -/
def symbolLen (chars : Toks) : Nat :=
  (chars.enum.takeWhile (fun ic => ic.1 ≤ 200 && tokenOk ic.2.2)).length

/-- `read_symbol` (`parse.rs` lines 137-159): takes the opening character
`a` (already consumed) and reads `symbolLen` further characters; fails
when the remaining iterator is already empty, or when the opening
character is whitespace. -/
def readSymbol (a : Char) (chars : Toks) : Except Error (Edn × Toks) :=
  let cLen := symbolLen chars
  match chars with
  | [] => .error (.ParseEdn "Could not identify symbol index")
  | (i, _) :: _ =>
    if rustIsWhitespace a then
      .error (.ParseEdn s!"\"{a}\" could not be parsed at char count {i}")
    else
      .ok (.Symbol (String.mk (a :: (chars.take cLen).map Prod.snd)), chars.drop cLen)

/-- `read_char` (`parse.rs` lines 295-306): fails when the iterator after
the backslash is empty, otherwise the next character is the payload. -/
def readChar (chars : Toks) : Except Error (Edn × Toks) :=
  match chars with
  | [] => .error (.ParseEdn "Could not identify symbol index")
  | (_, c) :: rest => .ok (.Char c, rest)

/-- `read_bool_or_nil` (`parse.rs` lines 308-370): peeks the run up to
the next whitespace or delimiter; `t`/`f`/`n` with runs `rue`/`alse`/`il`
produce `true`/`false`/`nil`, every other case falls through to
`read_symbol`. -/
def readBoolOrNil (c : Char) (chars : Toks) : Except Error (Edn × Toks) :=
  match chars with
  | [] => .error (.ParseEdn "Could not identify symbol index")
  | (i, _) :: _ =>
    let run := (chars.takeWhile (fun x => tokenOk x.2)).map Prod.snd
    if c = 't' ∧ run = "rue".data then
      -- "t" ++ the three taken characters is "true"; `"true".parse::<bool>()`
      .ok (.Bool true, chars.drop 3)
    else if c = 'f' ∧ run = "alse".data then
      .ok (.Bool false, chars.drop 4)
    else if c = 'n' ∧ run = "il".data then
      let string := String.mk ('n' :: (chars.take 2).map Prod.snd)
      if string = "nil" then .ok (.Nil, chars.drop 2)
      else .error (.ParseEdn s!"{string} could not be parsed at char count {i}")
    else readSymbol c chars

/-- Rust `str::find(char)`: index of the first occurrence (character
index; byte and character indices agree on the ASCII inputs concerned;
see the Unicode caveat at the top). -/
def strFindIdx (p : Char → Bool) : List Char → Option Nat
  | [] => none
  | c :: rest => if p c then some 0 else (strFindIdx p rest).map (· + 1)

/-- The radix-detection block of `read_number` (`parse.rs` lines
216-269): strips `0x`/`-0x` prefixes (radix 16) or an `NrDIGITS`
radix prefix located by the first `r` of the lowercased text, returning
the stripped digit text together with the radix, or the corresponding
parse error. -/
def numberRadix (number0 : List Char) : Except Error (List Char × Nat) :=
  if (number0.map asciiToLower).take 2 = ['0', 'x'] then
    .ok (number0.drop 2, 16)
  else if (number0.map asciiToLower).take 3 = ['-', '0', 'x'] then
    .ok ('-' :: number0.drop 3, 16)
  else
    match strFindIdx (· = 'r') (number0.map asciiToLower) with
    | some index =>
      let negative := number0.take 1 = ['-']
      let radixStr :=
        if negative then (number0.drop 1).take (index - 1)
        else number0.take index
      match u32ParseErr radixStr with
      | .ok r =>
        -- from_str_radix panics if radix is not in the range from 2 to 36
        if ¬(2 ≤ r ∧ r ≤ 36) then
          .error (.ParseEdn s!"Radix of {r} is out of bounds")
        else
          let stripped :=
            if negative then '-' :: number0.drop (index + 1)
            else number0.drop (index + 1)
          .ok (stripped, r)
      | .error e =>
        .error (.ParseEdn (e ++ " while trying to parse radix from " ++ String.mk number0))
    | none => .ok (number0, 10)

/-- The classification cascade of `read_number` (`parse.rs` lines
271-292), applied to the radix-stripped text: exponent float, then
unsigned 64-bit, signed 64-bit, plain float, rational, reclassification
as a symbol when more than one `E`/`e` occurs, and otherwise a parse
error carrying the text, the character offset `i` and the radix. -/
def numberClassify (number : List Char) (radix : Nat) (i : Nat) : Except Error Edn :=
  if (number.contains 'E' || number.contains 'e') && floatOk number then
    .ok (.Double (String.mk number))
  else match u64FromStrRadix number radix with
  | some v => .ok (.UInt v)
  | none =>
    match i64FromStrRadix number radix with
    | some z => .ok (.Int z)
    | none =>
      if floatOk number then .ok (.Double (String.mk number))
      else if number.contains '/' && (splitOnSlash number).all floatOk then
        .ok (.Rational (String.mk number))
      else if ((number.map asciiToUpper).filter (· = 'E')).length > 1 then
        -- read_symbol over the collected text with a fresh enumeration
        match readSymbol (number.headD ' ') number.tail.enum with
        | .ok (sym, _) => .ok sym
        | .error e => .error e
      else
        .error (.ParseEdn
          (String.mk number ++ s!" could not be parsed at char count {i} with radix {radix}"))

/-- `read_number` (`parse.rs` lines 206-293): records the offset of the
character after the first one, collects the token up to whitespace or a
delimiter (dropping a leading `+`), detects the radix form, and
classifies the resulting text. -/
def readNumber (n : Char) (chars : Toks) : Except Error (Edn × Toks) :=
  match chars with
  | [] => .error (.ParseEdn "Could not identify symbol index")
  | (i, _) :: _ =>
    let cLen := (chars.takeWhile (fun x => tokenOk x.2)).length
    -- The EDN spec allows for a redundant '+' symbol, we just ignore it.
    let number0 := (if n = '+' then [] else [n]) ++ (chars.take cLen).map Prod.snd
    match numberRadix number0 with
    | .error e => .error e
    | .ok (number, radix) =>
      match numberClassify number radix i with
      | .ok e => .ok (e, chars.drop cLen)
      | .error e => .error e

/-! ## The structural parser (`parse.rs` lines 14-534)

The mutually recursive functions `parse`, `parse_internal`, `parse_edn`,
`tagged_or_set_or_discard`, `read_key_or_nsmap`, `read_tagged`,
`read_discard`, `read_vec`, `read_list`, `read_set` (the
`feature = "sets"` version), `read_map`, `read_namespaced_map` and
`read_if_not_container_end` are embedded as one fuel-structural
interpreter: each `PCmd` constructor is the state of one Rust function
(for the container readers, the state of its reading loop), and every
call passes the strictly smaller fuel. -/

/-- Call markers of the parser interpreter; one constructor per Rust
function of the mutual-recursion nest (loop state inlined for the
container loops).  `i` fields carry the character offset recorded by the
corresponding Rust function for its error messages. -/
inductive PCmd where
  | pparse (c : Option (Nat × Char)) (s : Toks)
  | pinternal (c : Option (Nat × Char)) (s : Toks)
  | pedn (c : Option (Nat × Char)) (s : Toks)
  | ptagset (s : Toks)
  | pkeyns (s : Toks)
  | ptagged (s : Toks)
  | pdiscard (s : Toks)
  | pnotend (s : Toks)
  | pvec (i : Nat) (res : List Edn) (s : Toks)
  | plist (i : Nat) (res : List Edn) (s : Toks)
  | pset (i : Nat) (res : List Edn) (s : Toks)
  | pmap (i : Nat) (res : List (String × Edn)) (key : Option Edn) (s : Toks)
  | pnsmap (i : Nat) (ns : String) (res : List (String × Edn)) (key : Option Edn) (s : Toks)

/-- Result lift for the leaf readers inside the interpreter
(`parse_edn` wraps their value in `Some`). -/
def liftLeaf : Except Error (Edn × Toks) → Except Error (Option Edn × Toks)
  | .ok (v, r) => .ok (some v, r)
  | .error e => .error e

/-- The parser interpreter.  The result is the pair of the produced
value (`none` models the Rust `None` of `parse_internal` and
`read_if_not_container_end`; the cases standing for functions that
return `Edn` always produce `some`) and the remaining iterator. -/
def runP : Nat → PCmd → Except Error (Option Edn × Toks)
  | 0, _ => .error (.ParseEdn "parser fuel exhausted")
  | fuel + 1, cmd =>
    match cmd with
    | .pparse c s =>
      -- `parse`: parse_internal, with `None` becoming `Edn::Empty`
      match runP fuel (.pinternal c s) with
      | .ok (o, r) => .ok (some (o.getD .Empty), r)
      | .error e => .error e
    | .pinternal c s =>
      -- `parse_internal`
      match c with
      | none => .ok (none, s)
      | some (idx, ch) =>
        if ch = '[' then
          -- read_vec: record the offset of the next character, then loop
          match s with
          | [] => .error (.ParseEdn "Could not identify symbol index")
          | (i, _) :: _ => runP fuel (.pvec i [] s)
        else if ch = '(' then
          match s with
          | [] => .error (.ParseEdn "Could not identify symbol index")
          | (i, _) :: _ => runP fuel (.plist i [] s)
        else if ch = '#' then runP fuel (.ptagset s)
        else if ch = '{' then
          match s with
          | [] => .error (.ParseEdn "Could not identify symbol index")
          | (i, _) :: _ => runP fuel (.pmap i [] none s)
        else if ch = ';' then
          -- Consumes the content up to and including the newline
          runP fuel (.pnotend (findCharDrain '\n' s))
        else if rustIsWhitespace ch ∨ ch = ',' then runP fuel (.pnotend s)
        else runP fuel (.pedn (some (idx, ch)) s)
    | .pedn c s =>
      -- `parse_edn`
      match c with
      | none => .error (.ParseEdn "Edn could not be parsed")
      | some (_idx, ch) =>
        if ch = '\"' then liftLeaf (readStr s)
        else if ch = ':' then runP fuel (.pkeyns s)
        else if rustIsNumeric ch then liftLeaf (readNumber ch s)
        else if (ch = '-' ∨ ch = '+') ∧
            (s.head?.elim false (fun x => rustIsNumeric x.2)) = true then
          liftLeaf (readNumber ch s)
        else if ch = '\\' then liftLeaf (readChar s)
        else if ch = 't' ∨ ch = 'f' ∨ ch = 'n' then liftLeaf (readBoolOrNil ch s)
        else liftLeaf (readSymbol ch s)
    | .ptagset s =>
      -- `tagged_or_set_or_discard`: peek via a clone
      match s with
      | (_, '{') :: s1 =>
        -- read_set (the `feature = "sets"` version): drop `{`, record offset, loop
        match s1 with
        | [] => .error (.ParseEdn "Could not identify symbol index")
        | (i, _) :: _ => runP fuel (.pset i [] s1)
      | (_, '_') :: _ => runP fuel (.pdiscard s)
      | _ => runP fuel (.ptagged s)
    | .pkeyns s =>
      -- `read_key_or_nsmap`
      let keyRun := (s.takeWhile (fun x => keyOk x.2)).map Prod.snd
      let cLen := keyRun.length
      if keyRun.contains '{' then
        -- read_namespaced_map: record offset, consume the namespace and `{`, loop
        match s with
        | [] => .error (.ParseEdn "Could not identify symbol index")
        | (i, _) :: _ =>
          let (nsChars, rest) := takeWhileDrain (fun x => x ≠ '{') s
          runP fuel (.pnsmap i (String.mk nsChars) [] none rest)
      else
        -- read_key (infallible)
        .ok (some (.Key (String.mk (':' :: (s.take cLen).map Prod.snd))), s.drop cLen)
    | .ptagged s =>
      -- `read_tagged`
      let (tagChars, rest) := takeWhileDrain tagOk s
      if tagChars.take 4 = "inst".data then
        let s1 := rest.dropWhile quoteOrWs
        let (content, rest') := takeWhileDrain notQuote s1
        .ok (some (.Inst (String.mk content)), rest')
      else if tagChars.take 4 = "uuid".data then
        let s1 := rest.dropWhile quoteOrWs
        let (content, rest') := takeWhileDrain notQuote s1
        .ok (some (.Uuid (String.mk content)), rest')
      else
        match runP fuel (.pparse rest.head? rest.tail) with
        | .ok (o, r) => .ok (some (.Tagged (String.mk tagChars) (o.getD .Empty)), r)
        | .error e => .error e
    | .pdiscard s =>
      -- `read_discard`: consume the `_`, record the next offset, parse and
      -- drop one value, then continue unless a container end follows
      let s1 := s.drop 1
      match s1 with
      | [] => .error (.ParseEdn "Could not identify symbol index")
      | (i, _) :: _ =>
        match runP fuel (.pparse s1.head? s1.tail) with
        | .error e => .error e
        | .ok (o, r) =>
          match o.getD .Empty with
          | .Empty =>
            .error (.ParseEdn
              s!"Discard sequence must have a following element at char count {i}")
          | _ => runP fuel (.pnotend r)
    | .pnotend s =>
      -- `read_if_not_container_end`: peek via a clone; a container end is
      -- left unconsumed, anything else is consumed and dispatched
      match s with
      | [] => .ok (none, [])
      | (i, c) :: rest =>
        if c = ']' ∨ c = ')' ∨ c = '}' then .ok (none, (i, c) :: rest)
        else runP fuel (.pinternal (some (i, c)) rest)
    | .pvec i res s =>
      -- `read_vec` loop
      match s with
      | [] => .error (.ParseEdn s!"None could not be parsed at char count {i}")
      | (_, ']') :: rest => .ok (some (.Vector res), rest)
      | c :: rest =>
        match runP fuel (.pinternal (some c) rest) with
        | .error e => .error e
        | .ok (o, r) => runP fuel (.pvec i (res ++ o.toList) r)
    | .plist i res s =>
      -- `read_list` loop
      match s with
      | [] => .error (.ParseEdn s!"None could not be parsed at char count {i}")
      | (_, ')') :: rest => .ok (some (.List res), rest)
      | c :: rest =>
        match runP fuel (.pinternal (some c) rest) with
        | .error e => .error e
        | .ok (o, r) => runP fuel (.plist i (res ++ o.toList) r)
    | .pset i res s =>
      -- `read_set` loop (BTreeSet insertion)
      match s with
      | [] => .error (.ParseEdn s!"None could not be parsed at char count {i}")
      | (_, '}') :: rest => .ok (some (.Set res), rest)
      | c :: rest =>
        match runP fuel (.pinternal (some c) rest) with
        | .error e => .error e
        | .ok (o, r) =>
          match o with
          | some e => runP fuel (.pset i (setInsert fuel res e) r)
          | none => runP fuel (.pset i res r)
    | .pmap i res key s =>
      -- `read_map` loop: with a pending key the next value is read with
      -- `parse`, otherwise a key is read with `parse_internal`; a completed
      -- pair is inserted under the key's Display text
      match s with
      | [] => .error (.ParseEdn s!"None could not be parsed at char count {i}")
      | (_, '}') :: rest => .ok (some (.Map res), rest)
      | c :: rest =>
        match key with
        | some k =>
          match runP fuel (.pparse (some c) rest) with
          | .error e => .error e
          | .ok (o, r) =>
            runP fuel (.pmap i (btreeInsert res (tsRun fuel (.one k)) (o.getD .Empty)) none r)
        | none =>
          match runP fuel (.pinternal (some c) rest) with
          | .error e => .error e
          | .ok (o, r) => runP fuel (.pmap i res o r)
    | .pnsmap i ns res key s =>
      -- `read_namespaced_map` loop (same pair discipline as `read_map`)
      match s with
      | [] => .error (.ParseEdn s!"None could not be parsed at char count {i}")
      | (_, '}') :: rest => .ok (some (.NamespacedMap ns res), rest)
      | c :: rest =>
        match key with
        | some k =>
          match runP fuel (.pparse (some c) rest) with
          | .error e => .error e
          | .ok (o, r) =>
            runP fuel (.pnsmap i ns (btreeInsert res (tsRun fuel (.one k)) (o.getD .Empty)) none r)
        | none =>
          match runP fuel (.pinternal (some c) rest) with
          | .error e => .error e
          | .ok (o, r) => runP fuel (.pnsmap i ns res o r)

/-- `parse` (`parse.rs` lines 14-19) at a given fuel. -/
def parseF (fuel : Nat) (c : Option (Nat × Char)) (chars : Toks) :
    Except Error (Edn × Toks) :=
  match runP fuel (.pparse c chars) with
  | .ok (o, r) => .ok (o.getD .Empty, r)
  | .error e => .error e

/-- `parse_internal` (`parse.rs` lines 21-39) at a given fuel. -/
def parseInternalF (fuel : Nat) (c : Option (Nat × Char)) (chars : Toks) :
    Except Error (Option Edn × Toks) :=
  runP fuel (.pinternal c chars)

/-- Fuel supplied by the public entry point for an input of the given
character length.  The Rust parser makes at most a handful of calls per
consumed character plus a constant, so this bound is never reached. -/
def parseFuel (len : Nat) : Nat := 16 * (len + 2)

/-- The top-level parse of a string: `tokenize` plus `parse(chars.next(),
&mut chars)`, keeping the parsed value and the remaining iterator. -/
def parseOneStr (s : String) : Except Error (Edn × Toks) :=
  let l := s.data.enum
  parseF (parseFuel s.length) l.head? l.tail

/-- `Edn::from_str` (spec §6.2: `parse(text) → Value | Error`): parse one
top-level value and drop the remaining iterator.  Modelled from the
spec: the `FromStr` impl lives in the missing `edn/mod.rs` and chains
`tokenize` with `parse` exactly as the tests of `parse.rs` do. -/
def ednFromStr (s : String) : Except Error Edn :=
  match parseOneStr s with
  | .ok (v, _) => .ok v
  | .error e => .error e

/-! ## Deserialization into string-keyed mappings (`deserialize/mod.rs`)

`impl<T: Deserialize> Deserialize for HashMap<String, T>` (lines 181-214)
iterates the entries of a `Map` or `NamespacedMap`, converts each value
with `Deserialize::deserialize(e).unwrap()`, and folds the results into a
`HashMap` keyed by the entry key (for a namespaced map: the namespace,
`"/"`, then the key).  The element converter is the generic parameter of
the impl, modelled as an explicit function `f`.  The `.unwrap()` panics
(aborts the process) when the converter returns an error; a panic is
modelled as `none` in the outer `Option`. -/

/-- `HashMap::insert` on an association list in encounter order:
replaces the value of an existing key, otherwise appends. -/
def hmInsert {τ : Type} (l : List (String × τ)) (k : String) (v : τ) : List (String × τ) :=
  match l with
  | [] => [(k, v)]
  | (k', v') :: rest =>
    if k' = k then (k', v) :: rest else (k', v') :: hmInsert rest k v

/-- The mapped-and-folded entry traversal of the `HashMap<String, T>`
impl.  `mkKey` is the key transformation (identity for `Map`, namespace
prefixing for `NamespacedMap`); `none` models the panic of the
`.unwrap()` on a failed element conversion. -/
def dsMapGo {τ : Type} (f : Edn → Except Error τ) (mkKey : String → String)
    (acc : List (String × τ)) : List (String × Edn) → Option (List (String × τ))
  | [] => some acc
  | (k, v) :: rest =>
    match f v with
    | .ok t => dsMapGo f mkKey (hmInsert acc (mkKey k) t) rest
    | .error _ => none  -- `.unwrap()` on an `Err`: the Rust code panics here

/-- `<HashMap<String, T> as Deserialize>::deserialize`
(`deserialize/mod.rs` lines 181-214).  `tyNameDisplay` stands for
`std::any::type_name::<HashMap<String, T>>()`, and `dispFuel` bounds the
recursion depth of the Display used by `build_deserialize_error` (an
embedding artifact; the fallback arm's message is not constrained by any
claim).  The result is `none` when the Rust code panics, otherwise
`some` of the returned `Result`. -/
def deserializeStringMap {τ : Type} (f : Edn → Except Error τ)
    (tyNameDisplay : String) (dispFuel : Nat) (e : Edn) :
    Option (Except Error (List (String × τ))) :=
  match e with
  | .Map m => (dsMapGo f id [] m).map .ok
  | .NamespacedMap ns m => (dsMapGo f (fun k => ns ++ "/" ++ k) [] m).map .ok
  | _ =>
    some (.error (.Deserialize
      ("couldn't convert `" ++ tsRun dispFuel (.one e) ++ "` into `" ++ tyNameDisplay ++ "`")))

/-- `Edn::to_uint`.  Modelled from the spec §6.2: succeeds only for
non-negative integers (the impl lives in the missing `edn/mod.rs`). -/
def toUint : Edn → Option Nat
  | .UInt n => some n
  | .Int i => if 0 ≤ i then some i.toNat else none
  | _ => none

/-- `impl Deserialize for u64` (the `impl_deserialize_uint!` macro of
`deserialize/mod.rs` lines 105-121): `to_uint`, with failures mapped to
the `build_deserialize_error` Deserialize error.  `dispFuel` bounds the
Display recursion depth in the error message (an embedding artifact). -/
def deserializeUInt (dispFuel : Nat) (e : Edn) : Except Error Nat :=
  match toUint e with
  | some n => .ok n
  | none =>
    .error (.Deserialize ("couldn't convert `" ++ tsRun dispFuel (.one e) ++ "` into `uint`"))

/-- `impl Deserialize for String` (`deserialize/mod.rs` lines 130-143):
a `Str` whose content starts with `"` has all quotes removed, any other
`Str` passes through, and every other value is rendered via Display. -/
def deserializeString (dispFuel : Nat) (e : Edn) : Except Error String :=
  match e with
  | .Str s =>
    if s.data.take 1 = ['\"'] then .ok (String.mk (s.data.filter (· ≠ '\"')))
    else .ok s
  | e => .ok (tsRun dispFuel (.one e))

/-! ## Specification-side definitions

These definitions follow the words of the spec sentences behind the
claims (not the code); the claim theorems compare them with the embedded
code. -/

/-- The string-literal behaviour described by C5, as a function of the
characters after the opening `"`: an unescaped `"` closes the literal
and yields the unescaped content (paired with the number of characters
consumed, closing quote included); a backslash followed by a character
without a recognized escape is exactly the error `Invalid escape
sequence \x`; end of input before an unescaped `"` is exactly the error
`Unterminated string`. -/
def readStrSpec : List Char → Except Error (List Char × Nat)
  | [] => .error (.ParseEdn "Unterminated string")
  | c :: rest =>
    if c = '\"' then .ok ([], 1)
    else if c = '\\' then
      match rest with
      | [] => .error (.ParseEdn "Unterminated string")
      | d :: rest' =>
        match escChar d with
        | some u =>
          match readStrSpec rest' with
          | .ok (t, n) => .ok (u :: t, n + 2)
          | .error e => .error e
        | none => .error (.ParseEdn s!"Invalid escape sequence \\{d}")
    else
      match readStrSpec rest with
      | .ok (t, n) => .ok (c :: t, n + 1)
      | .error e => .error e

/-- The three alphanumeric code-point ranges accepted by
`char::to_digit`. -/
def alnumRange (c : Char) : Prop :=
  (48 ≤ c.toNat ∧ c.toNat ≤ 57) ∨ (97 ≤ c.toNat ∧ c.toNat ≤ 122) ∨
    (65 ≤ c.toNat ∧ c.toNat ≤ 90)

/-- Accumulator-threaded base-`radix` value of a digit string. -/
def baseValAcc (radix : Nat) (acc : Nat) (ds : List Char) : Nat :=
  ds.foldl (fun a c => a * radix + ((charDigit c).getD 0)) acc

/-- Base-`radix` value of a digit string. -/
def baseVal (radix : Nat) (ds : List Char) : Nat := baseValAcc radix 0 ds

/-- Spec-side model of the claim's classification cascade over the
radix-stripped number text, with its rational clause read literally:
"contains a single `/` with numeric sides" (C6 compares this against
`numberClassify`). -/
def classifySpecSingleSlash (number : List Char) (radix : Nat) (i : Nat) :
    Except Error Edn :=
  if (number.contains 'E' || number.contains 'e') && floatOk number then
    .ok (.Double (String.mk number))
  else if (u64FromStrRadix number radix).isSome then
    .ok (.UInt ((u64FromStrRadix number radix).getD 0))
  else if (i64FromStrRadix number radix).isSome then
    .ok (.Int ((i64FromStrRadix number radix).getD 0))
  else if floatOk number then
    .ok (.Double (String.mk number))
  else if (number.filter (· = '/')).length = 1 && (splitOnSlash number).all floatOk then
    .ok (.Rational (String.mk number))
  else if ((number.map asciiToUpper).filter (· = 'E')).length > 1 then
    match readSymbol (number.headD ' ') number.tail.enum with
    | .ok (sym, _) => .ok sym
    | .error e => .error e
  else
    .error (.ParseEdn
      (String.mk number ++ s!" could not be parsed at char count {i} with radix {radix}"))

/-- Spec-side model of the amended classification cascade: the rational
clause asks only for at least one `/`, with every `/`-separated piece
parseable as a float (C6's amended comparison point). -/
def classifySpecAmended (number : List Char) (radix : Nat) (i : Nat) :
    Except Error Edn :=
  if (number.contains 'E' || number.contains 'e') && floatOk number then
    .ok (.Double (String.mk number))
  else if (u64FromStrRadix number radix).isSome then
    .ok (.UInt ((u64FromStrRadix number radix).getD 0))
  else if (i64FromStrRadix number radix).isSome then
    .ok (.Int ((i64FromStrRadix number radix).getD 0))
  else if floatOk number then
    .ok (.Double (String.mk number))
  else if number.contains '/' && (splitOnSlash number).all floatOk then
    .ok (.Rational (String.mk number))
  else if ((number.map asciiToUpper).filter (· = 'E')).length > 1 then
    match readSymbol (number.headD ' ') number.tail.enum with
    | .ok (sym, _) => .ok sym
    | .error e => .error e
  else
    .error (.ParseEdn
      (String.mk number ++ s!" could not be parsed at char count {i} with radix {radix}"))


/-! ## Supporting lemmas -/

theorem string_append_mk_nil (acc : String) : acc ++ String.mk [] = acc := by
  cases acc with
  | mk d => exact congrArg String.mk (by simp)

theorem string_push_append_mk (acc : String) (u : Char) (t : List Char) :
    acc.push u ++ String.mk t = acc ++ String.mk (u :: t) := by
  cases acc with
  | mk d => exact congrArg String.mk (by simp)

/-- Unfolding: a quote closes the literal immediately. -/
theorem readStrSpec_quote (rest : List Char) : readStrSpec ('\"' :: rest) = .ok ([], 1) := by
  cases rest <;> simp [readStrSpec]

/-- Unfolding: a final backslash runs off the end of the input. -/
theorem readStrSpec_bs_nil : readStrSpec ['\\'] = .error (.ParseEdn "Unterminated string") := by
  simp [readStrSpec]

/-- Unfolding: a backslash dispatches on the escaped character. -/
theorem readStrSpec_esc (d : Char) (rest' : List Char) :
    readStrSpec ('\\' :: d :: rest') =
      (match escChar d with
       | some u =>
         match readStrSpec rest' with
         | .ok (t, n) => .ok (u :: t, n + 2)
         | .error e => .error e
       | none => .error (.ParseEdn s!"Invalid escape sequence \\{d}")) := by
  simp [readStrSpec]

/-- Unfolding: an ordinary character is kept. -/
theorem readStrSpec_other (c : Char) (rest : List Char) (h1 : c ≠ '\"') (h2 : c ≠ '\\') :
    readStrSpec (c :: rest) =
      (match readStrSpec rest with
       | .ok (t, n) => .ok (c :: t, n + 1)
       | .error e => .error e) := by
  cases rest <;> simp [readStrSpec, h1, h2]

/-- The `read_str` fold agrees with the C5 behaviour for every
accumulator state (induction by an explicit length bound since the
specification recurses two characters at a time). -/
theorem readStrGo_eq_spec :
    ∀ (n : Nat) (s : Toks), s.length ≤ n → ∀ (acc : String),
      readStrGo false acc s =
        (match readStrSpec (s.map Prod.snd) with
         | .ok (t, consumed) => .ok (.Str (acc ++ String.mk t), s.drop consumed)
         | .error e => .error e) := by
  intro n
  induction n with
  | zero =>
    intro s hs acc
    have : s = [] := List.length_eq_zero.mp (Nat.le_zero.mp hs)
    subst this
    simp [readStrGo, readStrSpec]
  | succ n ih =>
    intro s hs acc
    match s with
    | [] => simp [readStrGo, readStrSpec]
    | (i, c) :: rest =>
      by_cases hq : c = '\"'
      · subst hq
        simp [readStrGo, readStrSpec_quote, string_append_mk_nil]
      · by_cases hb : c = '\\'
        · subst hb
          match rest with
          | [] => simp [readStrGo, readStrSpec]
          | (j, d) :: rest' =>
            have hlen : rest'.length ≤ n := by
              simp at hs; omega
            simp only [readStrGo, List.map_cons, readStrSpec_esc]
            match hesc : escChar d with
            | some u =>
              have hrec := ih rest' hlen (acc.push u)
              simp only [hesc]
              rw [hrec]
              cases hspec : readStrSpec (rest'.map Prod.snd) with
              | ok p =>
                obtain ⟨t, consumed⟩ := p
                simp [hspec, string_push_append_mk]
              | error e => simp [hspec]
            | none =>
              simp [hesc]
        · have hlen : rest.length ≤ n := by
            simp at hs; omega
          have hrec := ih rest hlen (acc.push c)
          simp only [readStrGo, List.map_cons, if_neg hq, if_neg hb,
            readStrSpec_other c _ hq hb]
          rw [hrec]
          cases hspec : readStrSpec (rest.map Prod.snd) with
          | ok p =>
            obtain ⟨t, consumed⟩ := p
            simp [hspec, string_push_append_mk]
          | error e => simp [hspec]

/-! ## Claim theorems -/

/-- **C5** (confirmed).  For every string literal opened by `"`: when
every backslash is followed by a recognized escape (`t`, `r`, `n`,
backslash, `"`) and an unescaped closing `"` occurs, `read_str` returns
`Str` with the unescaped content; a backslash followed by any other
character `x` yields exactly the error `Invalid escape sequence \x`;
reaching end of input before an unescaped closing `"` yields exactly the
error `Unterminated string`.  Stated as: `read_str` coincides with
`readStrSpec`, the case description of C5, on every input stream. -/
theorem c5_string_reader_spec (s : Toks) :
    readStr s =
      (match readStrSpec (s.map Prod.snd) with
       | .ok (t, consumed) => .ok (.Str (String.mk t), s.drop consumed)
       | .error e => .error e) := by
  have h := readStrGo_eq_spec s.length s le_rfl ""
  rw [readStr, h]
  cases hspec : readStrSpec (s.map Prod.snd) with
  | ok p =>
    obtain ⟨t, consumed⟩ := p
    have hnil : ("" : String) ++ String.mk t = String.mk t := rfl
    simp [hnil]
  | error e => rfl


/-- **C1** (counterexample).  The claim says a map input whose key has
been read but whose value is missing at the closing `}` is a parse
error.  On the input `{:a 1 :b}` the parser instead succeeds and
returns the map without the dangling key `:b`. -/
theorem c1_counterexample :
    ednFromStr "\x7b:a 1 :b\x7d" = .ok (.Map [(":a", .UInt 1)]) := by rfl

/-- **C1** (amended, proved).  A partially-read pair at `}` is not a
parse error: whenever the `read_map` loop meets the closing `}` while a
key is pending and its value has not been read, it returns the map of
the completed pairs, silently dropping the dangling key. -/
theorem c1_dangling_key_dropped (fuel i j : Nat) (res : List (String × Edn))
    (k : Edn) (rest : Toks) :
    runP (fuel + 1) (.pmap i res (some k) ((j, '}') :: rest)) =
      .ok (some (.Map res), rest) := by rfl

/-- **C2** (counterexample).  The claim says only the exact tag texts
`inst` and `uuid` are specialized, and a tag like `instant` produces
`Tagged("instant", v)`.  On the input `#instant 5` the parser instead
produces `Inst "5"`, because `read_tagged` tests `starts_with("inst")`. -/
theorem c2_counterexample : ednFromStr "#instant 5" = .ok (.Inst "5") := by rfl

/-- **C2** (amended, proved).  After `#`, the tag is specialized to
`Inst` whenever the collected tag text merely starts with `inst` (and
likewise `Uuid` for `uuid`); only when it starts with neither does
`read_tagged` parse the following value `v` and return `Tagged(t, v)`. -/
theorem c2_tag_specialization (fuel : Nat) (s : Toks) (tagChars : List Char) (rest : Toks)
    (hsplit : takeWhileDrain tagOk s = (tagChars, rest)) :
    (tagChars.take 4 = "inst".data →
      runP (fuel + 1) (.ptagged s) =
        .ok (some (.Inst (String.mk (takeWhileDrain notQuote (rest.dropWhile quoteOrWs)).1)),
          (takeWhileDrain notQuote (rest.dropWhile quoteOrWs)).2)) ∧
    (tagChars.take 4 ≠ "inst".data → tagChars.take 4 = "uuid".data →
      runP (fuel + 1) (.ptagged s) =
        .ok (some (.Uuid (String.mk (takeWhileDrain notQuote (rest.dropWhile quoteOrWs)).1)),
          (takeWhileDrain notQuote (rest.dropWhile quoteOrWs)).2)) ∧
    (tagChars.take 4 ≠ "inst".data → tagChars.take 4 ≠ "uuid".data →
      runP (fuel + 1) (.ptagged s) =
        (match runP fuel (.pparse rest.head? rest.tail) with
         | .ok (o, r) => .ok (some (.Tagged (String.mk tagChars) (o.getD .Empty)), r)
         | .error e => .error e)) := by
  refine ⟨fun hinst => ?_, fun hni huuid => ?_, fun hni hnu => ?_⟩
  · simp [runP, hsplit, hinst]
  · simp [runP, hsplit, hni, huuid]
  · simp [runP, hsplit, hni, hnu]

/-- Witness for C2 (amended): the tag `foo` is specialized to neither
`Inst` nor `Uuid`; `#foo 12` wraps the parsed `12` as `Tagged`. -/
theorem c2_tag_specialization_witness :
    runP 31 (.ptagged ("foo 12".data.enum)) = .ok (some (.Tagged "foo" (.UInt 12)), []) := by
  have h := (c2_tag_specialization 30 ("foo 12".data.enum) "foo".data [(4, '1'), (5, '2')]
    (by rfl)).2.2 (by decide) (by decide)
  rw [h]
  rfl

/-- **C10** (confirmed).  The top-level parse consumes exactly one value
and never inspects the rest of the input: whenever the first form of a
text parses to a value `v` (with arbitrary unconsumed remainder),
`Edn::from_str` returns `Ok(v)` no matter what that remainder holds. -/
theorem c10_trailing_input_ignored (s : String) (v : Edn) (rest : Toks)
    (h : parseOneStr s = .ok (v, rest)) : ednFromStr s = .ok v := by
  simp [ednFromStr, h]

/-- Witness for C10: parsing `1 2` consumes only the form `1`, leaves
` 2` unread, and `from_str` returns `UInt 1`. -/
theorem c10_trailing_input_ignored_witness :
    parseOneStr "1 2" = .ok (.UInt 1, [(1, ' '), (2, '2')]) ∧
      ednFromStr "1 2" = .ok (.UInt 1) := by
  have h : parseOneStr "1 2" = .ok (.UInt 1, [(1, ' '), (2, '2')]) := by rfl
  exact ⟨h, c10_trailing_input_ignored "1 2" (.UInt 1) [(1, ' '), (2, '2')] h⟩


/-- A `takeWhile` is the `take` of its own length. -/
theorem takeWhile_eq_take_len {α : Type} (p : α → Bool) :
    ∀ l : List α, l.takeWhile p = l.take (l.takeWhile p).length := by
  intro l
  induction l with
  | nil => rfl
  | cons x xs ih =>
    by_cases h : p x
    · simpa [List.takeWhile_cons, h] using ih
    · simp [List.takeWhile_cons, h]

/-- `take` commutes with enumeration. -/
theorem enumFrom_take {α : Type} :
    ∀ (l : List α) (n k : Nat), (l.enumFrom k).take n = (l.take n).enumFrom k := by
  intro l
  induction l with
  | nil => intro n k; simp
  | cons x xs ih =>
    intro n k
    cases n with
    | zero => simp
    | succ m => simp [List.enumFrom, ih]

/-- Any member of a list appears in its enumeration. -/
theorem mem_enumFrom_of_mem {α : Type} {y : α} :
    ∀ {l : List α} (k : Nat), y ∈ l → ∃ j, (j, y) ∈ l.enumFrom k := by
  intro l
  induction l with
  | nil => intro k h; cases h
  | cons x xs ih =>
    intro k h
    rcases List.mem_cons.mp h with rfl | hmem
    · exact ⟨k, List.mem_cons_self _ _⟩
    · obtain ⟨j, hj⟩ := ih (k + 1) hmem
      exact ⟨j, List.mem_cons_of_mem _ hj⟩

/-- The index guard `i ≤ 200` bounds the length of the enumerated
`takeWhile` run of `read_symbol`. -/
theorem enumFrom_takeWhile_bound {α : Type} (q : α → Bool) :
    ∀ (l : List α) (k : Nat),
      ((l.enumFrom k).takeWhile (fun ic => ic.1 ≤ 200 && q ic.2)).length ≤ 201 - k := by
  intro l
  induction l with
  | nil => intro k; simp
  | cons x xs ih =>
    intro k
    simp only [List.enumFrom, List.takeWhile_cons]
    by_cases h : ((k ≤ 200 : Bool) && q x) = true
    · have hk : k ≤ 200 := by
        have := (Bool.and_eq_true _ _).mp h
        exact of_decide_eq_true this.1
      have := ih (k + 1)
      simp only [h, if_true, List.length_cons]
      omega
    · simp [h]

set_option maxRecDepth 4000 in
/-- **C4** (counterexample).  The claim says the symbol reader reads at
most 200 characters after the opening character.  On an opening `a`
followed by 250 further `b`s it reads 201 of them: the produced symbol
text has 202 characters. -/
theorem c4_counterexample :
    readSymbol 'a' ((List.replicate 250 'b').enum) =
      .ok (.Symbol (String.mk ('a' :: List.replicate 201 'b')),
        ((List.replicate 250 'b').enum).drop 201) ∧
      (String.mk ('a' :: List.replicate 201 'b')).length = 202 := by
  constructor <;> rfl

/-- **C4** (amended, proved).  For every input, `read_symbol` reads at
most 201 characters after the opening character (the guard is
`i <= 200` on a 0-based index): the parsed symbol text is the opening
character followed by at most 201 further characters, all of which are
neither whitespace nor delimiters. -/
theorem c4_symbol_bounded (a : Char) (s : Toks)
    (ha : rustIsWhitespace a = false) (hs : s ≠ []) :
    ∃ (extra : List Char) (rest : Toks),
      readSymbol a s = .ok (.Symbol (String.mk (a :: extra)), rest) ∧
      extra.length ≤ 201 ∧
      ∀ c ∈ extra, tokenOk c = true := by
  match s with
  | (i, x) :: s' =>
    refine ⟨(((i, x) :: s').take (symbolLen ((i, x) :: s'))).map Prod.snd,
      ((i, x) :: s').drop (symbolLen ((i, x) :: s')), ?_, ?_, ?_⟩
    · simp [readSymbol, ha]
    · have hb := enumFrom_takeWhile_bound (fun y => tokenOk y.2) ((i, x) :: s') 0
      have hlen : (((i, x) :: s').take (symbolLen ((i, x) :: s'))).length ≤
          symbolLen ((i, x) :: s') := List.length_take_le _ _
      simp only [List.length_map]
      calc (((i, x) :: s').take (symbolLen ((i, x) :: s'))).length
          ≤ symbolLen ((i, x) :: s') := hlen
        _ ≤ 201 := by simpa [symbolLen, List.enum] using hb
    · intro c hc
      obtain ⟨y, hy, rfl⟩ := List.mem_map.mp hc
      obtain ⟨j, hj⟩ := mem_enumFrom_of_mem 0 hy
      -- (j, y) lies in the enumeration of the taken prefix, which is the
      -- takeWhile run itself, so the predicate holds of it
      have hj' : (j, y) ∈ (((i, x) :: s').enum.takeWhile
          (fun ic => ic.1 ≤ 200 && tokenOk ic.2.2)) := by
        have h1 : (((i, x) :: s').take (symbolLen ((i, x) :: s'))).enumFrom 0 =
            (((i, x) :: s').enumFrom 0).take (symbolLen ((i, x) :: s')) :=
          (enumFrom_take _ _ _).symm
        have h2 := takeWhile_eq_take_len
          (fun ic => ic.1 ≤ 200 && tokenOk ic.2.2) (((i, x) :: s').enumFrom 0)
        rw [symbolLen, List.enum] at *
        rw [h1] at hj
        rw [← h2] at hj
        exact hj
      have := List.mem_takeWhile_imp hj'
      exact ((Bool.and_eq_true _ _).mp this).2

/-- Witness for C4 (amended): a concrete symbol read. -/
theorem c4_symbol_bounded_witness :
    ∃ (extra : List Char) (rest : Toks),
      readSymbol 'x' [(1, 'y')] = .ok (.Symbol (String.mk ('x' :: extra)), rest) ∧
      extra.length ≤ 201 ∧
      ∀ c ∈ extra, tokenOk c = true :=
  c4_symbol_bounded 'x' [(1, 'y')] (by decide) (by simp)


/-- **C3** (the code panics).  When any element conversion of a
string-keyed map deserialization fails, the `.unwrap()` in the
`HashMap<String, T>` impl panics (result `none`) instead of returning
the `Deserialize` error to the caller, for a plain map and for a
namespaced map alike. -/
theorem c3_map_element_failure_panics {τ : Type} (f : Edn → Except Error τ)
    (ty : String) (dfuel : Nat) (k ns : String) (e' : Edn) (err : Error)
    (hf : f e' = .error err) :
    deserializeStringMap f ty dfuel (.Map [(k, e')]) = none ∧
      deserializeStringMap f ty dfuel (.NamespacedMap ns [(k, e')]) = none := by
  constructor <;> simp [deserializeStringMap, dsMapGo, hf]

/-- Witness for C3: deserializing the map `{:a "some text"}` into a
`HashMap<String, u64>` fails element conversion (the `u64` converter
rejects the string) and the code panics. -/
theorem c3_map_element_failure_panics_witness :
    deserializeUInt 8 (.Str "some text") =
        .error (.Deserialize "couldn't convert `\"some text\"` into `uint`") ∧
      deserializeStringMap (deserializeUInt 8) "HashMap<String, u64>" 8
        (.Map [(":a", .Str "some text")]) = none ∧
      deserializeStringMap (deserializeUInt 8) "HashMap<String, u64>" 8
        (.NamespacedMap "ns" [(":a", .Str "some text")]) = none := by
  have hf : deserializeUInt 8 (.Str "some text") =
      .error (.Deserialize "couldn't convert `\"some text\"` into `uint`") := by rfl
  have h := c3_map_element_failure_panics (deserializeUInt 8) "HashMap<String, u64>" 8
    ":a" "ns" (.Str "some text") (.Deserialize "couldn't convert `\"some text\"` into `uint`") hf
  exact ⟨hf, h.1, h.2⟩

/-- A fresh key is appended by `HashMap::insert`. -/
theorem hmInsert_append {τ : Type} (knew : String) (t : τ) :
    ∀ (acc : List (String × τ)), (∀ q ∈ acc, q.1 ≠ knew) →
      hmInsert acc knew t = acc ++ [(knew, t)] := by
  intro acc
  induction acc with
  | nil => intro _; rfl
  | cons q acc' ih =>
    intro hfresh
    have hq : q.1 ≠ knew := hfresh q (List.mem_cons_self _ _)
    obtain ⟨k', v'⟩ := q
    simp only [hmInsert, if_neg hq, List.cons_append, List.cons.injEq, true_and]
    exact ih (fun r hr => hfresh r (List.mem_cons_of_mem _ hr))

/-- The entry traversal of the string-keyed map deserializer: with an
injective key transformation, all conversions succeeding, and pairwise
distinct keys, it appends exactly the transformed entries in order. -/
theorem dsMapGo_exact {τ : Type} (f : Edn → Except Error τ) (mkKey : String → String)
    (hinj : ∀ a b, mkKey a = mkKey b → a = b) :
    ∀ (m : List (String × Edn)) (acc : List (String × τ)),
      (∀ p ∈ m, ∃ t, f p.2 = .ok t) →
      (m.map Prod.fst).Nodup →
      (∀ p ∈ m, ∀ q ∈ acc, q.1 ≠ mkKey p.1) →
      ∃ l, dsMapGo f mkKey acc m = some (acc ++ l) ∧
        List.Forall₂ (fun (p : String × Edn) (q : String × τ) =>
          q.1 = mkKey p.1 ∧ f p.2 = .ok q.2) m l := by
  intro m
  induction m with
  | nil =>
    intro acc _ _ _
    exact ⟨[], by simp [dsMapGo], List.Forall₂.nil⟩
  | cons p m' ih =>
    intro acc hconv hnd hfresh
    obtain ⟨k, v⟩ := p
    obtain ⟨t, ht⟩ := hconv (k, v) (List.mem_cons_self _ _)
    have hins : hmInsert acc (mkKey k) t = acc ++ [(mkKey k, t)] :=
      hmInsert_append (mkKey k) t acc
        (fun q hq => hfresh (k, v) (List.mem_cons_self _ _) q hq)
    simp only [List.map_cons] at hnd
    have hcons := List.nodup_cons.mp hnd
    have hnotin : k ∉ m'.map Prod.fst := hcons.1
    have hnd' : (m'.map Prod.fst).Nodup := hcons.2
    have hfresh' : ∀ p ∈ m', ∀ q ∈ acc ++ [(mkKey k, t)], q.1 ≠ mkKey p.1 := by
      intro p hp q hq
      rcases List.mem_append.mp hq with hq | hq
      · exact hfresh p (List.mem_cons_of_mem _ hp) q hq
      · have : q = (mkKey k, t) := by simpa using hq
        subst this
        simp only
        intro heq
        exact hnotin (by
          have : k = p.1 := hinj _ _ heq
          exact this ▸ List.mem_map_of_mem Prod.fst hp)
    obtain ⟨l, hl, hfa⟩ := ih (acc ++ [(mkKey k, t)])
      (fun p hp => hconv p (List.mem_cons_of_mem _ hp)) hnd' hfresh'
    refine ⟨(mkKey k, t) :: l, ?_, List.Forall₂.cons ⟨rfl, ht⟩ hfa⟩
    simp only [dsMapGo, ht, hins]
    rw [hl, List.append_assoc]
    rfl

/-- Prefixing with `ns ++ "/"` is injective in the key. -/
theorem nsKey_injective (ns : String) :
    ∀ a b : String, ns ++ "/" ++ a = ns ++ "/" ++ b → a = b := by
  intro a b h
  have hd : (ns ++ "/" ++ a).data = (ns ++ "/" ++ b).data := congrArg String.data h
  cases a with
  | mk da =>
    cases b with
    | mk db =>
      cases ns with
      | mk dn =>
        apply congrArg String.mk
        have : dn ++ '/' :: da = dn ++ '/' :: db := by
          simpa [String.mk] using hd
        have := List.append_cancel_left this
        simpa using this

/-- **C9** (confirmed).  Deserializing a namespaced map `:ns{ k v … }`
into a string-keyed mapping produces exactly one entry per stored pair:
the key is the namespace text, then `/`, then the inner key text, and
the value is the converted value (stated for every element converter
that succeeds on all values, with the stored keys pairwise distinct, as
produced by the `BTreeMap` of `read_namespaced_map`). -/
theorem c9_namespaced_map_flattening {τ : Type} (f : Edn → Except Error τ)
    (ty : String) (dfuel : Nat) (ns : String) (m : List (String × Edn))
    (hconv : ∀ p ∈ m, ∃ t, f p.2 = .ok t)
    (hnd : (m.map Prod.fst).Nodup) :
    ∃ l, deserializeStringMap f ty dfuel (.NamespacedMap ns m) = some (.ok l) ∧
      List.Forall₂ (fun (p : String × Edn) (q : String × τ) =>
        q.1 = ns ++ "/" ++ p.1 ∧ f p.2 = .ok q.2) m l := by
  obtain ⟨l, hl, hfa⟩ := dsMapGo_exact f (fun k => ns ++ "/" ++ k)
    (nsKey_injective ns) m [] hconv hnd (by simp)
  refine ⟨l, ?_, hfa⟩
  simp [deserializeStringMap, hl]

/-- Witness for C9: the namespaced map parsed from `:abc{ 0 :val 1
:value}` deserializes (with the `String` element converter) to entries
keyed `abc/0` and `abc/1`. -/
theorem c9_namespaced_map_flattening_witness :
    ednFromStr ":abc\x7b 0 :val 1 :value\x7d" =
        .ok (.NamespacedMap "abc" [("0", .Key ":val"), ("1", .Key ":value")]) ∧
      ∃ l, deserializeStringMap (deserializeString 8) "HashMap<String, String>" 8
          (.NamespacedMap "abc" [("0", .Key ":val"), ("1", .Key ":value")]) = some (.ok l) ∧
        List.Forall₂ (fun (p : String × Edn) (q : String × String) =>
          q.1 = "abc" ++ "/" ++ p.1 ∧ deserializeString 8 p.2 = .ok q.2)
          [("0", .Key ":val"), ("1", .Key ":value")] l := by
  constructor
  · rfl
  · apply c9_namespaced_map_flattening (deserializeString 8) "HashMap<String, String>" 8
      "abc" [("0", .Key ":val"), ("1", .Key ":value")]
    · intro p hp
      simp only [List.mem_cons, List.not_mem_nil, or_false] at hp
      rcases hp with rfl | rfl
      · exact ⟨":val", rfl⟩
      · exact ⟨":value", rfl⟩
    · simp


/-! ## Character-class and numeric lemmas for C6/C7 -/

theorem alnumRange_of_charDigit {c : Char} (h : (charDigit c).isSome = true) :
    alnumRange c := by
  by_cases h1 : 48 ≤ c.toNat ∧ c.toNat ≤ 57
  · exact Or.inl h1
  · by_cases h2 : 97 ≤ c.toNat ∧ c.toNat ≤ 122
    · exact Or.inr (Or.inl h2)
    · by_cases h3 : 65 ≤ c.toNat ∧ c.toNat ≤ 90
      · exact Or.inr (Or.inr h3)
      · simp [charDigit, h1, h2, h3] at h

theorem rustIsWhitespace_false_of_alnum {c : Char} (h : alnumRange c) :
    rustIsWhitespace c = false := by
  have hm : ¬ c.toNat ∈ [0x09, 0x0A, 0x0B, 0x0C, 0x0D, 0x20, 0x85, 0xA0, 0x1680,
      0x2000, 0x2001, 0x2002, 0x2003, 0x2004, 0x2005, 0x2006, 0x2007,
      0x2008, 0x2009, 0x200A, 0x2028, 0x2029, 0x202F, 0x205F, 0x3000] := by
    intro hmem
    simp [List.mem_cons] at hmem
    rcases h with h | h | h <;> omega
  simpa [rustIsWhitespace] using hm

theorem delimiters_notMem_of_alnum {c : Char} (h : alnumRange c) :
    ¬ c ∈ DELIMITERS := by
  intro hmem
  simp only [DELIMITERS, List.mem_cons, List.not_mem_nil, or_false] at hmem
  rcases hmem with rfl | rfl | rfl | rfl | rfl | rfl | rfl | rfl <;>
    rcases h with h | h | h <;> simp_all

theorem tokenOk_of_alnum {c : Char} (h : alnumRange c) : tokenOk c = true := by
  have h1 := rustIsWhitespace_false_of_alnum h
  have h2 := delimiters_notMem_of_alnum h
  simp [tokenOk, h1]
  simpa using h2

/-- Digits are unchanged by ASCII lowercasing. -/
theorem asciiToLower_digit {c : Char} (h : 48 ≤ c.toNat ∧ c.toNat ≤ 57) :
    asciiToLower c = c := by
  simp only [asciiToLower]
  rw [if_neg]
  omega

theorem map_asciiToLower_digits {N : List Char}
    (h : ∀ c ∈ N, 48 ≤ c.toNat ∧ c.toNat ≤ 57) : N.map asciiToLower = N := by
  induction N with
  | nil => rfl
  | cons x xs ih =>
    simp only [List.map_cons]
    rw [asciiToLower_digit (h x (List.mem_cons_self _ _)),
      ih (fun c hc => h c (List.mem_cons_of_mem _ hc))]

/-- `strFindIdx` locates the separating `r` after a run without `r`. -/
theorem strFindIdx_r (l1 l2 : List Char) (h : ∀ c ∈ l1, ¬(c = 'r')) :
    strFindIdx (· = 'r') (l1 ++ 'r' :: l2) = some l1.length := by
  induction l1 with
  | nil => simp [strFindIdx]
  | cons x xs ih =>
    have hx : ¬(x = 'r') := h x (List.mem_cons_self _ _)
    have ihh := ih (fun c hc => h c (List.mem_cons_of_mem _ hc))
    simp [strFindIdx, hx, ihh]

theorem strFindIdx_cons (p : Char → Bool) (c : Char) (rest : List Char) :
    strFindIdx p (c :: rest) =
      (if p c then some 0 else (strFindIdx p rest).map (· + 1)) := rfl

theorem baseValAcc_ge (radix : Nat) (hr : 1 ≤ radix) :
    ∀ (ds : List Char) (acc : Nat), acc ≤ baseValAcc radix acc ds := by
  intro ds
  induction ds with
  | nil => intro acc; exact le_rfl
  | cons c cs ih =>
    intro acc
    have h1 : acc ≤ acc * radix + (charDigit c).getD 0 := by nlinarith
    exact h1.trans (ih (acc * radix + (charDigit c).getD 0))

theorem digitsVal_none (radix : Nat) : ∀ ds : List Char, digitsVal radix ds none = none := by
  intro ds
  induction ds with
  | nil => rfl
  | cons c cs ih => simp [digitsVal, ih]

theorem digitsVal_eq (radix : Nat) :
    ∀ (ds : List Char) (acc : Nat), (∀ c ∈ ds, (charToDigit c radix).isSome = true) →
      digitsVal radix ds (some acc) = some (baseValAcc radix acc ds) := by
  intro ds
  induction ds with
  | nil => intro acc _; rfl
  | cons c cs ih =>
    intro acc h
    have hc := h c (List.mem_cons_self _ _)
    match hd : charToDigit c radix with
    | some d =>
      have hdig : (charDigit c).getD 0 = d := by
        simp only [charToDigit] at hd
        match hcd : charDigit c with
        | some d' =>
          rw [hcd] at hd
          by_cases hlt : d' < radix
          · simp [hlt] at hd
            simp [hd]
          · simp [hlt] at hd
        | none => rw [hcd] at hd; cases hd
      simp only [digitsVal, hd]
      rw [ih (acc * radix + d) (fun x hx => h x (List.mem_cons_of_mem _ hx))]
      simp [baseValAcc, List.foldl_cons, hdig]
    | none => rw [hd] at hc; cases hc

theorem u64FromStrRadix_digits (radix : Nat) (D : List Char) (hne : D ≠ [])
    (hplus : D.head? ≠ some '+')
    (hdig : ∀ c ∈ D, (charToDigit c radix).isSome = true)
    (hfit : baseVal radix D < 2 ^ 64) :
    u64FromStrRadix D radix = some (baseVal radix D) := by
  match D with
  | [] => exact absurd rfl hne
  | c :: cs =>
    have hc : ¬(c = '+') := by
      intro h
      exact hplus (by simp [h])
    simp only [u64FromStrRadix, hc, if_false, if_neg, List.isEmpty_cons,
      Bool.false_eq_true]
    rw [digitsVal_eq radix (c :: cs) 0 hdig]
    show (if baseValAcc radix 0 (c :: cs) < 2 ^ 64 then some (baseValAcc radix 0 (c :: cs))
      else none) = some (baseVal radix (c :: cs))
    rw [if_pos (show baseValAcc radix 0 (c :: cs) < 2 ^ 64 from hfit)]
    rfl

theorem u64FromStrRadix_neg (radix : Nat) (D : List Char) :
    u64FromStrRadix ('-' :: D) radix = none := by
  have h45 : ¬(('-' : Char) = '+') := by decide
  have hdash : charToDigit '-' radix = none := by
    simp [charToDigit, charDigit]
  simp [u64FromStrRadix, h45, digitsVal, hdash, digitsVal_none]

theorem i64FromStrRadix_neg (radix : Nat) (D : List Char) (hne : D ≠ [])
    (hdig : ∀ c ∈ D, (charToDigit c radix).isSome = true)
    (hfit : baseVal radix D ≤ 2 ^ 63) :
    i64FromStrRadix ('-' :: D) radix = some (-(baseVal radix D : Int)) := by
  have h45 : ¬(('-' : Char) = '+') := by decide
  have h46 : (('-' : Char) = '-') := rfl
  simp only [i64FromStrRadix, h45, if_false, if_neg, h46, if_true, if_pos]
  rw [i64Digits, if_neg (by simpa [List.isEmpty_iff] using hne)]
  rw [digitsVal_eq radix D 0 hdig]
  show (if baseValAcc radix 0 D ≤ 2 ^ 63 then some (-(baseValAcc radix 0 D : Int))
    else none) = some (-(baseVal radix D : Int))
  rw [if_pos (show baseValAcc radix 0 D ≤ 2 ^ 63 from hfit)]
  rfl


theorem u32go_digits :
    ∀ (ds : List Char) (acc : Nat),
      (∀ c ∈ ds, 48 ≤ c.toNat ∧ c.toNat ≤ 57) →
      baseValAcc 10 acc ds < 2 ^ 32 →
      u32ParseErr.go acc ds = .ok (baseValAcc 10 acc ds) := by
  intro ds
  induction ds with
  | nil => intro acc _ _; rfl
  | cons c cs ih =>
    intro acc hd hb
    have hc := hd c (List.mem_cons_self _ _)
    have hcd : charDigit c = some (c.toNat - 48) := by
      simp [charDigit, hc]
    have hcd10 : charToDigit c 10 = some (c.toNat - 48) := by
      simp only [charToDigit, hcd]
      rw [if_pos]
      omega
    have hstep : baseValAcc 10 acc (c :: cs) =
        baseValAcc 10 (acc * 10 + (c.toNat - 48)) cs := by
      simp [baseValAcc, hcd]
    have hbound : acc * 10 + (c.toNat - 48) < 2 ^ 32 := by
      have hge := baseValAcc_ge 10 (by omega) cs (acc * 10 + (c.toNat - 48))
      rw [hstep] at hb
      omega
    rw [u32ParseErr.go, hcd10]
    simp only [hbound, if_true, if_pos]
    rw [ih (acc * 10 + (c.toNat - 48)) (fun x hx => hd x (List.mem_cons_of_mem _ hx))
      (by rw [← hstep]; exact hb)]
    rw [hstep]

theorem u32ParseErr_digits (N : List Char) (hne : N ≠ [])
    (hd : ∀ c ∈ N, 48 ≤ c.toNat ∧ c.toNat ≤ 57)
    (hb : baseVal 10 N < 2 ^ 32) :
    u32ParseErr N = .ok (baseVal 10 N) := by
  match N with
  | [] => exact absurd rfl hne
  | c :: cs =>
    have hc := hd c (List.mem_cons_self _ _)
    have hplus : ¬(c = '+') := by
      intro h
      subst h
      simp at hc
    simp only [u32ParseErr, hplus, if_false, if_neg, List.isEmpty_cons,
      Bool.false_eq_true]
    exact u32go_digits (c :: cs) 0 hd hb

theorem digits_ne_r {N : List Char} (hd : ∀ c ∈ N, 48 ≤ c.toNat ∧ c.toNat ≤ 57) :
    ∀ c ∈ N, ¬(c = 'r') := by
  intro c hc heq
  subst heq
  have := (hd 'r' hc).2
  simp at this

/-- The radix-detection block on a positive radix token `NrDIGITS`. -/
theorem numberRadix_pos (n0 : Char) (N' D : List Char)
    (hd : ∀ c ∈ n0 :: N', 48 ≤ c.toNat ∧ c.toNat ≤ 57)
    (hlt : baseVal 10 (n0 :: N') < 2 ^ 32) :
    numberRadix (n0 :: N' ++ 'r' :: D) =
      (if 2 ≤ baseVal 10 (n0 :: N') ∧ baseVal 10 (n0 :: N') ≤ 36
       then .ok (D, baseVal 10 (n0 :: N'))
       else .error (.ParseEdn
         ("Radix of " ++ toString (baseVal 10 (n0 :: N')) ++ " is out of bounds"))) := by
  have h0 : asciiToLower n0 = n0 := asciiToLower_digit (hd n0 (List.mem_cons_self _ _))
  have h1 : N'.map asciiToLower = N' :=
    map_asciiToLower_digits (fun c hc => hd c (List.mem_cons_of_mem _ hc))
  have hr : asciiToLower 'r' = 'r' := by decide
  have hlow : (n0 :: N' ++ 'r' :: D).map asciiToLower =
      n0 :: N' ++ 'r' :: D.map asciiToLower := by
    simp [List.map_cons, List.map_append, h0, h1, hr]
  have hc1 : ¬(((n0 :: N' ++ 'r' :: D).map asciiToLower).take 2 = ['0', 'x']) := by
    rw [hlow]
    match N' with
    | [] =>
      intro heq
      simp at heq
    | n1 :: N'' =>
      intro heq
      simp at heq
      have hb := (hd n1 (List.mem_cons_of_mem _ (List.mem_cons_self _ _))).2
      rw [heq.2] at hb
      simp at hb
  have hc2 : ¬(((n0 :: N' ++ 'r' :: D).map asciiToLower).take 3 = ['-', '0', 'x']) := by
    rw [hlow]
    intro heq
    have hn0 := (hd n0 (List.mem_cons_self _ _)).1
    simp at heq
    rw [heq.1] at hn0
    simp at hn0
  have hfind : strFindIdx (· = 'r') ((n0 :: N' ++ 'r' :: D).map asciiToLower) =
      some (n0 :: N').length := by
    rw [hlow]
    exact strFindIdx_r (n0 :: N') (D.map asciiToLower) (digits_ne_r hd)
  have hneg : ¬((n0 :: N' ++ 'r' :: D).take 1 = ['-']) := by
    intro heq
    have hn0 := (hd n0 (List.mem_cons_self _ _)).1
    simp at heq
    rw [heq] at hn0
    simp at hn0
  have htake : (n0 :: N' ++ 'r' :: D).take (n0 :: N').length = n0 :: N' :=
    List.take_left _ _
  have hdrop : (n0 :: N' ++ 'r' :: D).drop ((n0 :: N').length + 1) = D := by
    have hsplit : n0 :: N' ++ 'r' :: D = (n0 :: N' ++ ['r']) ++ D := by simp
    have hlen : (n0 :: N' ++ ['r']).length = (n0 :: N').length + 1 := by simp
    rw [hsplit, ← hlen]
    exact List.drop_left _ _
  rw [numberRadix]
  rw [if_neg hc1, if_neg hc2, hfind]
  simp only [if_neg hneg, if_false]
  rw [htake, u32ParseErr_digits (n0 :: N') (by simp) hd hlt]
  by_cases hrange : 2 ≤ baseVal 10 (n0 :: N') ∧ baseVal 10 (n0 :: N') ≤ 36
  · simp [hrange, hneg, hdrop]
  · simp [hrange]
    rfl

/-- The radix-detection block on a negative radix token `-NrDIGITS`. -/
theorem numberRadix_negCase (n0 : Char) (N' D : List Char)
    (hd : ∀ c ∈ n0 :: N', 48 ≤ c.toNat ∧ c.toNat ≤ 57)
    (hlt : baseVal 10 (n0 :: N') < 2 ^ 32) :
    numberRadix ('-' :: (n0 :: N' ++ 'r' :: D)) =
      (if 2 ≤ baseVal 10 (n0 :: N') ∧ baseVal 10 (n0 :: N') ≤ 36
       then .ok ('-' :: D, baseVal 10 (n0 :: N'))
       else .error (.ParseEdn
         ("Radix of " ++ toString (baseVal 10 (n0 :: N')) ++ " is out of bounds"))) := by
  have h0 : asciiToLower n0 = n0 := asciiToLower_digit (hd n0 (List.mem_cons_self _ _))
  have h1 : N'.map asciiToLower = N' :=
    map_asciiToLower_digits (fun c hc => hd c (List.mem_cons_of_mem _ hc))
  have hr : asciiToLower 'r' = 'r' := by decide
  have hdash : asciiToLower '-' = '-' := by decide
  have hlow : ('-' :: (n0 :: N' ++ 'r' :: D)).map asciiToLower =
      '-' :: n0 :: N' ++ 'r' :: D.map asciiToLower := by
    simp [List.map_cons, List.map_append, h0, h1, hr, hdash]
  have hc1 : ¬((('-' :: (n0 :: N' ++ 'r' :: D)).map asciiToLower).take 2 = ['0', 'x']) := by
    rw [hlow]
    intro heq
    simp at heq
  have hc2 : ¬((('-' :: (n0 :: N' ++ 'r' :: D)).map asciiToLower).take 3 =
      ['-', '0', 'x']) := by
    rw [hlow]
    match N' with
    | [] =>
      intro heq
      simp at heq
    | n1 :: N'' =>
      intro heq
      simp at heq
      have hb := (hd n1 (List.mem_cons_of_mem _ (List.mem_cons_self _ _))).2
      rw [heq.2] at hb
      simp at hb
  have hfind : strFindIdx (· = 'r') ((('-' :: (n0 :: N' ++ 'r' :: D)).map asciiToLower)) =
      some ((n0 :: N').length + 1) := by
    rw [hlow]
    have hinner := strFindIdx_r (n0 :: N') (D.map asciiToLower) (digits_ne_r hd)
    show strFindIdx (· = 'r') ('-' :: ((n0 :: N') ++ 'r' :: D.map asciiToLower)) =
      some ((n0 :: N').length + 1)
    rw [strFindIdx_cons, if_neg (by decide), hinner]
    rfl
  have hneg : ('-' :: (n0 :: N' ++ 'r' :: D)).take 1 = ['-'] := by simp
  have htake : (('-' :: (n0 :: N' ++ 'r' :: D)).drop 1).take ((n0 :: N').length + 1 - 1) =
      n0 :: N' := by
    simp only [List.drop_succ_cons, List.drop_zero, Nat.add_sub_cancel]
    exact List.take_left _ _
  have hdrop : ('-' :: (n0 :: N' ++ 'r' :: D)).drop ((n0 :: N').length + 1 + 1) =
      D := by
    simp only [List.drop_succ_cons]
    have hsplit : n0 :: N' ++ 'r' :: D = (n0 :: N' ++ ['r']) ++ D := by simp
    have hlen : (n0 :: N' ++ ['r']).length = (n0 :: N').length + 1 := by simp
    rw [hsplit, ← hlen]
    exact List.drop_left _ _
  rw [numberRadix]
  rw [if_neg hc1, if_neg hc2, hfind]
  simp only [if_pos hneg, if_true]
  rw [htake, u32ParseErr_digits (n0 :: N') (by simp) hd hlt]
  by_cases hrange : 2 ≤ baseVal 10 (n0 :: N') ∧ baseVal 10 (n0 :: N') ≤ 36
  · simp [hrange, hneg, hdrop]
  · simp [hrange]
    rfl

theorem charDigit_isSome_of_charToDigit {c : Char} {radix : Nat}
    (h : (charToDigit c radix).isSome = true) : (charDigit c).isSome = true := by
  simp only [charToDigit] at h
  match hcd : charDigit c with
  | some d => rfl
  | none => rw [hcd] at h; cases h

/-- The classification cascade on an all-digit text in the working
radix yields `UInt` of its base-`radix` value. -/
theorem numberClassify_uint (radix i : Nat) (D : List Char) (hne : D ≠ [])
    (hdig : ∀ c ∈ D, (charToDigit c radix).isSome = true)
    (hE : ((D.contains 'E' || D.contains 'e') && floatOk D) = false)
    (hfit : baseVal radix D < 2 ^ 64) :
    numberClassify D radix i = .ok (.UInt (baseVal radix D)) := by
  have hplus : D.head? ≠ some '+' := by
    match D with
    | [] => exact absurd rfl hne
    | c :: cs =>
      intro h
      simp at h
      subst h
      have := hdig '+' (List.mem_cons_self _ _)
      simp [charToDigit, charDigit] at this
  rw [numberClassify, if_neg (by rw [hE]; simp),
    u64FromStrRadix_digits radix D hne hplus hdig hfit]

/-- The classification cascade on a `-`-signed all-digit text in the
working radix yields `Int` of the negated base-`radix` value. -/
theorem numberClassify_negint (radix i : Nat) (D : List Char) (hne : D ≠ [])
    (hdig : ∀ c ∈ D, (charToDigit c radix).isSome = true)
    (hE : ((('-' :: D).contains 'E' || ('-' :: D).contains 'e')
        && floatOk ('-' :: D)) = false)
    (hfit : baseVal radix D ≤ 2 ^ 63) :
    numberClassify ('-' :: D) radix i = .ok (.Int (-(baseVal radix D : Int))) := by
  rw [numberClassify, if_neg (by rw [hE]; simp), u64FromStrRadix_neg radix D,
    i64FromStrRadix_neg radix D hne hdig hfit]

/-- `read_number` on a stream holding exactly one token: the collected
text is the first character plus the token run, the token run is
consumed, and the result is the radix detection followed by the
classification cascade. -/
theorem readNumber_stream (n t0 : Char) (ts : List Char) (k : Nat) (rest : Toks)
    (htok : ∀ c ∈ t0 :: ts, tokenOk c = true)
    (hrest : rest.takeWhile (fun x => tokenOk x.2) = []) :
    readNumber n ((t0 :: ts).enumFrom k ++ rest) =
      (match numberRadix ((if n = '+' then [] else [n]) ++ (t0 :: ts)) with
       | .error e => .error e
       | .ok (number, radix) =>
         match numberClassify number radix k with
         | .ok e => .ok (e, rest)
         | .error e => .error e) := by
  have hmem : ∀ x ∈ (t0 :: ts).enumFrom k, tokenOk x.2 = true := fun x hx =>
    htok x.2 (List.snd_mem_of_mem_enumFrom hx)
  have htw : (((k, t0) :: (ts.enumFrom (k + 1) ++ rest)).takeWhile
      (fun x => tokenOk x.2)) = (k, t0) :: ts.enumFrom (k + 1) := by
    have h1 : ((t0 :: ts).enumFrom k ++ rest).takeWhile (fun x => tokenOk x.2)
        = (t0 :: ts).enumFrom k := by
      rw [List.takeWhile_append_of_pos hmem, hrest, List.append_nil]
    exact h1
  have htake : (((k, t0) :: (ts.enumFrom (k + 1) ++ rest))).take (ts.length + 1)
      = (k, t0) :: ts.enumFrom (k + 1) := by
    have h1 := List.take_left ((t0 :: ts).enumFrom k) rest
    rw [List.enumFrom_length, List.length_cons] at h1
    exact h1
  have hdrop : (((k, t0) :: (ts.enumFrom (k + 1) ++ rest))).drop (ts.length + 1)
      = rest := by
    have h1 := List.drop_left ((t0 :: ts).enumFrom k) rest
    rw [List.enumFrom_length, List.length_cons] at h1
    exact h1
  have hmap : ((k, t0) :: ts.enumFrom (k + 1)).map Prod.snd = t0 :: ts :=
    List.enumFrom_map_snd k (t0 :: ts)
  show readNumber n ((k, t0) :: (ts.enumFrom (k + 1) ++ rest)) = _
  simp only [readNumber]
  rw [htw]
  simp only [List.length_cons, List.enumFrom_length]
  rw [htake, hmap, hdrop]

theorem readNumber_token_ok (n : Char) (tail : List Char) (k : Nat) (rest : Toks)
    (hne : tail ≠ [])
    (htok : ∀ c ∈ tail, tokenOk c = true)
    (hrest : rest.takeWhile (fun x => tokenOk x.2) = [])
    (D : List Char) (radix : Nat) (v : Edn)
    (hradix : numberRadix ((if n = '+' then [] else [n]) ++ tail) = .ok (D, radix))
    (hclass : numberClassify D radix k = .ok v) :
    readNumber n (tail.enumFrom k ++ rest) = .ok (v, rest) := by
  match tail with
  | [] => exact absurd rfl hne
  | t0 :: ts =>
    rw [readNumber_stream n t0 ts k rest htok hrest, hradix]
    show (match numberClassify D radix k with
      | Except.ok e => Except.ok (e, rest)
      | Except.error e => Except.error e) = Except.ok (v, rest)
    rw [hclass]

theorem readNumber_token_err (n : Char) (tail : List Char) (k : Nat) (rest : Toks)
    (hne : tail ≠ [])
    (htok : ∀ c ∈ tail, tokenOk c = true)
    (hrest : rest.takeWhile (fun x => tokenOk x.2) = [])
    (er : Error)
    (hradix : numberRadix ((if n = '+' then [] else [n]) ++ tail) = .error er) :
    readNumber n (tail.enumFrom k ++ rest) = .error er := by
  match tail with
  | [] => exact absurd rfl hne
  | t0 :: ts =>
    rw [readNumber_stream n t0 ts k rest htok hrest, hradix]

theorem tokenOk_of_digit {c : Char} (h : 48 ≤ c.toNat ∧ c.toNat ≤ 57) :
    tokenOk c = true :=
  tokenOk_of_alnum (Or.inl h)

theorem tokenOk_of_charToDigit {c : Char} {radix : Nat}
    (h : (charToDigit c radix).isSome = true) : tokenOk c = true :=
  tokenOk_of_alnum (alnumRange_of_charDigit (charDigit_isSome_of_charToDigit h))

/-- Counterexample to the unamended C7: for the in-range radix token
`16r1e1` the digits are not interpreted in base 16 (which would give
`UInt 481`): because the classification cascade runs on the
radix-stripped digit text, `1e1` is read as an exponent float and the
result is `Double "1e1"`. -/
theorem c7_counterexample : ednFromStr "16r1e1" = .ok (.Double "1e1") := by rfl

/-- C7 (amended): for a radix token `NrDIGITS` or `-NrDIGITS` whose
digit text is valid for radix `N` and is not itself readable as an
exponent float: when `N` is outside `[2, 36]` the number reader fails
with exactly `Radix of N is out of bounds`; when `N` lies in `[2, 36]`
the digits are interpreted in base `N`, giving `UInt` of the value for
the unsigned form (if it fits 64 unsigned bits) and `Int` of the negated
value for the `-`-signed form (if it fits 63 bits). -/
theorem c7_radix_tokens (n0 : Char) (N' D : List Char) (k : Nat) (rest : Toks)
    (hd : ∀ c ∈ n0 :: N', 48 ≤ c.toNat ∧ c.toNat ≤ 57)
    (hr32 : baseVal 10 (n0 :: N') < 2 ^ 32)
    (hDne : D ≠ [])
    (hdig : ∀ c ∈ D, (charToDigit c (baseVal 10 (n0 :: N'))).isSome = true)
    (hE1 : ((D.contains 'E' || D.contains 'e') && floatOk D) = false)
    (hE2 : ((('-' :: D).contains 'E' || ('-' :: D).contains 'e')
        && floatOk ('-' :: D)) = false)
    (hrest : rest.takeWhile (fun x => tokenOk x.2) = []) :
    (2 ≤ baseVal 10 (n0 :: N') ∧ baseVal 10 (n0 :: N') ≤ 36 →
      (baseVal (baseVal 10 (n0 :: N')) D < 2 ^ 64 →
        readNumber n0 ((N' ++ 'r' :: D).enumFrom k ++ rest) =
          .ok (.UInt (baseVal (baseVal 10 (n0 :: N')) D), rest)) ∧
      (baseVal (baseVal 10 (n0 :: N')) D ≤ 2 ^ 63 →
        readNumber '-' (((n0 :: N') ++ 'r' :: D).enumFrom k ++ rest) =
          .ok (.Int (-(baseVal (baseVal 10 (n0 :: N')) D : Int)), rest))) ∧
    (¬(2 ≤ baseVal 10 (n0 :: N') ∧ baseVal 10 (n0 :: N') ≤ 36) →
      readNumber n0 ((N' ++ 'r' :: D).enumFrom k ++ rest) =
        .error (.ParseEdn ("Radix of " ++ toString (baseVal 10 (n0 :: N')) ++
          " is out of bounds")) ∧
      readNumber '-' (((n0 :: N') ++ 'r' :: D).enumFrom k ++ rest) =
        .error (.ParseEdn ("Radix of " ++ toString (baseVal 10 (n0 :: N')) ++
          " is out of bounds"))) := by
  have hn0 := hd n0 (List.mem_cons_self _ _)
  have hn0plus : ¬(n0 = '+') := by
    intro h
    rw [h] at hn0
    simp at hn0
  have htokP : ∀ c ∈ N' ++ 'r' :: D, tokenOk c = true := by
    intro c hc
    rcases List.mem_append.1 hc with h | h
    · exact tokenOk_of_digit (hd c (List.mem_cons_of_mem _ h))
    · rcases List.mem_cons.1 h with rfl | h2
      · decide
      · exact tokenOk_of_charToDigit (hdig c h2)
  have htokN : ∀ c ∈ (n0 :: N') ++ 'r' :: D, tokenOk c = true := by
    intro c hc
    rcases List.mem_append.1 hc with h | h
    · exact tokenOk_of_digit (hd c h)
    · rcases List.mem_cons.1 h with rfl | h2
      · decide
      · exact tokenOk_of_charToDigit (hdig c h2)
  have hneP : N' ++ 'r' :: D ≠ [] := by simp
  have hneN : (n0 :: N') ++ 'r' :: D ≠ [] := by simp
  have hradP := numberRadix_pos n0 N' D hd hr32
  have hradN := numberRadix_negCase n0 N' D hd hr32
  constructor
  · intro hrange
    rw [if_pos hrange] at hradP hradN
    constructor
    · intro hfit
      refine readNumber_token_ok n0 (N' ++ 'r' :: D) k rest hneP htokP hrest D
        (baseVal 10 (n0 :: N')) (.UInt (baseVal (baseVal 10 (n0 :: N')) D)) ?_ ?_
      · rw [if_neg hn0plus]
        exact hradP
      · exact numberClassify_uint (baseVal 10 (n0 :: N')) k D hDne hdig hE1 hfit
    · intro hfit
      refine readNumber_token_ok '-' ((n0 :: N') ++ 'r' :: D) k rest hneN htokN hrest
        ('-' :: D) (baseVal 10 (n0 :: N'))
        (.Int (-(baseVal (baseVal 10 (n0 :: N')) D : Int))) ?_ ?_
      · rw [if_neg (by decide)]
        exact hradN
      · exact numberClassify_negint (baseVal 10 (n0 :: N')) k D hDne hdig hE2 hfit
  · intro hrange
    rw [if_neg hrange] at hradP hradN
    constructor
    · refine readNumber_token_err n0 (N' ++ 'r' :: D) k rest hneP htokP hrest _ ?_
      rw [if_neg hn0plus]
      exact hradP
    · refine readNumber_token_err '-' ((n0 :: N') ++ 'r' :: D) k rest hneN htokN hrest _ ?_
      rw [if_neg (by decide)]
      exact hradN

/-- Counterexample to the unamended C6: the token `1/2/3` contains two
`/` characters, so the claim's "single `/`" rational clause rejects it
(falling through to the residue parse error), but the parser accepts
every token whose `/`-separated pieces parse as floats and returns
`Rational "1/2/3"`. -/
theorem c6_counterexample :
    ednFromStr "1/2/3" = .ok (.Rational "1/2/3") ∧
    classifySpecSingleSlash "1/2/3".data 10 1 =
      .error (.ParseEdn "1/2/3 could not be parsed at char count 1 with radix 10") :=
  ⟨rfl, rfl⟩

/-- C6 (amended): the number reader's classification of the
radix-stripped token text follows exactly the priority cascade
exponent-float `Double`, unsigned 64-bit `UInt`, signed 64-bit `Int`,
plain-float `Double`, then `Rational` for text with at least one `/`
whose every `/`-separated piece parses as a float, then reclassification
as a `Symbol` when more than one `E`/`e` occurs, and otherwise the parse
error carrying the text, the character offset and the radix. -/
theorem c6_number_classification (number : List Char) (radix i : Nat) :
    numberClassify number radix i = classifySpecAmended number radix i := by
  by_cases hE : ((number.contains 'E' || number.contains 'e') && floatOk number) = true
  · rw [numberClassify, classifySpecAmended, if_pos hE, if_pos hE]
  · rw [numberClassify, classifySpecAmended, if_neg hE, if_neg hE]
    cases h1 : u64FromStrRadix number radix with
    | some v => simp [h1]
    | none =>
      cases h2 : i64FromStrRadix number radix with
      | some z => simp [h1, h2]
      | none => simp [h1, h2]

/-! ## Single-step unfolding lemmas of the parser interpreter (for C8) -/

theorem runP_pparse_ok (f : Nat) (c : Option (Nat × Char)) (s : Toks)
    (o : Option Edn) (r : Toks)
    (h : runP f (.pinternal c s) = .ok (o, r)) :
    runP (f + 1) (.pparse c s) = .ok (some (o.getD .Empty), r) := by
  simp only [runP, h]

theorem runP_pinternal_hash (f idx : Nat) (s : Toks) :
    runP (f + 1) (.pinternal (some (idx, '#')) s) = runP f (.ptagset s) := rfl

theorem runP_pinternal_space (f idx : Nat) (s : Toks) :
    runP (f + 1) (.pinternal (some (idx, ' ')) s) = runP f (.pnotend s) := rfl

theorem runP_ptagset_underscore (f j : Nat) (s' : Toks) :
    runP (f + 1) (.ptagset ((j, '_') :: s')) = runP f (.pdiscard ((j, '_') :: s')) := rfl

theorem runP_pnotend_cons (f i : Nat) (c : Char) (rest : Toks)
    (h : ¬(c = ']' ∨ c = ')' ∨ c = '}')) :
    runP (f + 1) (.pnotend ((i, c) :: rest)) = runP f (.pinternal (some (i, c)) rest) := by
  simp only [runP]
  rw [if_neg h]

theorem runP_pnotend_nil (f : Nat) : runP (f + 1) (.pnotend []) = .ok (none, []) := rfl

/-- `read_discard` after its inner `parse` produced a non-`Empty` value:
the value is dropped and reading continues with
`read_if_not_container_end`. -/
theorem runP_discard_step (f : Nat) (s s1tl : Toks) (i : Nat) (c0 : Char)
    (v : Edn) (r : Toks) (hv : v ≠ .Empty)
    (hdrop : s.drop 1 = (i, c0) :: s1tl)
    (hok : runP f (.pparse (some (i, c0)) s1tl) = .ok (some v, r)) :
    runP (f + 1) (.pdiscard s) = runP f (.pnotend r) := by
  simp only [runP]
  rw [hdrop]
  simp only [List.head?_cons, List.tail_cons]
  rw [hok]
  cases v <;> first | rfl | exact absurd rfl hv

/-- The public entry point, given the result of the top `parse` call at
the entry fuel. -/
theorem ednFromStr_of_pparse (c0 : Char) (cs : List Char) (w : Edn) (r : Toks)
    (h : runP (parseFuel (cs.length + 1)) (.pparse (some (0, c0)) (cs.enumFrom 1)) =
      .ok (some w, r)) :
    ednFromStr (String.mk (c0 :: cs)) = .ok w := by
  have h1 : parseOneStr (String.mk (c0 :: cs)) = .ok (w, r) := by
    simp only [parseOneStr, parseF]
    rw [show parseFuel (String.mk (c0 :: cs)).length = parseFuel (cs.length + 1) from rfl,
      show (String.mk (c0 :: cs)).data.enum.head? = some (0, c0) from rfl,
      show (String.mk (c0 :: cs)).data.enum.tail = cs.enumFrom 1 from rfl, h]
    rfl
  simp only [ednFromStr, h1]

/-- C8: discard neutrality.  `Y0 :: Y'` is a value text whose parse
(`parse_internal` from offset 3, the position it occupies in `#_ Y`)
yields a non-`Empty` value `v` and consumes exactly the text (given
enough fuel, both with a following ` X` and alone); `X0 :: X'` is an
input whose parse from any offset yields `w`.  Then parsing `#_ Y X`
yields exactly `w`, the same as parsing `X` alone, and parsing `#_ Y`
alone yields the `Empty` value. -/
theorem c8_discard_neutral (Y0 X0 : Char) (Y' X' : List Char) (v w : Edn)
    (hY0 : ¬(Y0 = ']' ∨ Y0 = ')' ∨ Y0 = '}'))
    (hX0 : ¬(X0 = ']' ∨ X0 = ')' ∨ X0 = '}'))
    (hv : v ≠ .Empty)
    (hY1 : ∀ f, 16 * (Y'.length + X'.length + 3) ≤ f →
      runP f (.pinternal (some (3, Y0)) ((Y' ++ ' ' :: X0 :: X').enumFrom 4)) =
        .ok (some v, (' ' :: X0 :: X').enumFrom (4 + Y'.length)))
    (hY2 : ∀ f, 16 * (Y'.length + 2) ≤ f →
      runP f (.pinternal (some (3, Y0)) (Y'.enumFrom 4)) = .ok (some v, []))
    (hX : ∀ j f, 16 * (X'.length + 2) ≤ f →
      ∃ r, runP f (.pinternal (some (j, X0)) (X'.enumFrom (j + 1))) = .ok (some w, r)) :
    ednFromStr (String.mk ('#' :: '_' :: ' ' :: Y0 :: (Y' ++ ' ' :: X0 :: X'))) = .ok w ∧
    ednFromStr (String.mk (X0 :: X')) = .ok w ∧
    ednFromStr (String.mk ('#' :: '_' :: ' ' :: Y0 :: Y')) = .ok .Empty := by
  refine ⟨?_, ?_, ?_⟩
  · -- `#_ Y X`
    obtain ⟨g, hg⟩ : ∃ g,
        parseFuel (('_' :: ' ' :: Y0 :: (Y' ++ ' ' :: X0 :: X')).length + 1) = g + 8 :=
      ⟨parseFuel (('_' :: ' ' :: Y0 :: (Y' ++ ' ' :: X0 :: X')).length + 1) - 8,
        by simp [parseFuel]; omega⟩
    have hgbound : 16 * (Y'.length + X'.length + 3) ≤ g + 1 ∧
        16 * (X'.length + 2) ≤ g + 1 := by
      simp [parseFuel] at hg
      omega
    have hYv := hY1 (g + 1) hgbound.1
    have hP2 : runP (g + 2)
        (.pnotend ((3, Y0) :: ((Y' ++ ' ' :: X0 :: X').enumFrom 4))) =
        .ok (some v, (' ' :: X0 :: X').enumFrom (4 + Y'.length)) := by
      rw [runP_pnotend_cons (g + 1) 3 Y0 _ hY0, hYv]
    have hP3 : runP (g + 3)
        (.pinternal (some (2, ' ')) ((3, Y0) :: ((Y' ++ ' ' :: X0 :: X').enumFrom 4))) =
        .ok (some v, (' ' :: X0 :: X').enumFrom (4 + Y'.length)) := by
      rw [runP_pinternal_space, hP2]
    have hP4 : runP (g + 4)
        (.pparse (some (2, ' ')) ((3, Y0) :: ((Y' ++ ' ' :: X0 :: X').enumFrom 4))) =
        .ok (some v, (' ' :: X0 :: X').enumFrom (4 + Y'.length)) :=
      runP_pparse_ok (g + 3) _ _ _ _ hP3
    obtain ⟨r2, hr2⟩ := hX (4 + Y'.length + 1) (g + 1) hgbound.2
    have hQ2 : runP (g + 2) (.pnotend ((X0 :: X').enumFrom (4 + Y'.length + 1))) =
        .ok (some w, r2) := by
      show runP (g + 2)
        (.pnotend ((4 + Y'.length + 1, X0) :: X'.enumFrom (4 + Y'.length + 1 + 1))) =
        .ok (some w, r2)
      rw [runP_pnotend_cons (g + 1) _ X0 _ hX0, hr2]
    have hQ3 : runP (g + 3) (.pinternal (some (4 + Y'.length, ' '))
        ((X0 :: X').enumFrom (4 + Y'.length + 1))) = .ok (some w, r2) := by
      rw [runP_pinternal_space, hQ2]
    have hQ4 : runP (g + 4) (.pnotend ((' ' :: X0 :: X').enumFrom (4 + Y'.length))) =
        .ok (some w, r2) := by
      show runP (g + 4)
        (.pnotend ((4 + Y'.length, ' ') :: (X0 :: X').enumFrom (4 + Y'.length + 1))) =
        .ok (some w, r2)
      rw [runP_pnotend_cons (g + 3) _ ' ' _ (by decide), hQ3]
    have hD : runP (g + 5)
        (.pdiscard ((1, '_') :: (2, ' ') :: (3, Y0) ::
          ((Y' ++ ' ' :: X0 :: X').enumFrom 4))) = .ok (some w, r2) := by
      rw [runP_discard_step (g + 4)
        ((1, '_') :: (2, ' ') :: (3, Y0) :: ((Y' ++ ' ' :: X0 :: X').enumFrom 4))
        ((3, Y0) :: ((Y' ++ ' ' :: X0 :: X').enumFrom 4)) 2 ' ' v
        ((' ' :: X0 :: X').enumFrom (4 + Y'.length)) hv rfl hP4, hQ4]
    refine ednFromStr_of_pparse '#' ('_' :: ' ' :: Y0 :: (Y' ++ ' ' :: X0 :: X')) w r2 ?_
    rw [hg]
    show runP (g + 8) (.pparse (some (0, '#'))
      ((1, '_') :: (2, ' ') :: (3, Y0) :: ((Y' ++ ' ' :: X0 :: X').enumFrom 4))) =
      .ok (some w, r2)
    have hI : runP (g + 7) (.pinternal (some (0, '#'))
        ((1, '_') :: (2, ' ') :: (3, Y0) :: ((Y' ++ ' ' :: X0 :: X').enumFrom 4))) =
        .ok (some w, r2) := by
      rw [runP_pinternal_hash, runP_ptagset_underscore, hD]
    exact runP_pparse_ok (g + 7) _ _ _ _ hI
  · -- `X` alone
    obtain ⟨g2, hg2⟩ : ∃ g2, parseFuel (X'.length + 1) = g2 + 1 :=
      ⟨parseFuel (X'.length + 1) - 1, by simp [parseFuel]; omega⟩
    have hb2 : 16 * (X'.length + 2) ≤ g2 := by
      simp [parseFuel] at hg2
      omega
    obtain ⟨r3, hr3⟩ := hX 0 g2 hb2
    refine ednFromStr_of_pparse X0 X' w r3 ?_
    rw [hg2]
    exact runP_pparse_ok g2 _ _ _ _ hr3
  · -- `#_ Y` alone
    obtain ⟨g3, hg3⟩ : ∃ g3, parseFuel (('_' :: ' ' :: Y0 :: Y').length + 1) = g3 + 8 :=
      ⟨parseFuel (('_' :: ' ' :: Y0 :: Y').length + 1) - 8, by simp [parseFuel]; omega⟩
    have hb3 : 16 * (Y'.length + 2) ≤ g3 + 1 := by
      simp [parseFuel] at hg3
      omega
    have hYv := hY2 (g3 + 1) hb3
    have hP2 : runP (g3 + 2) (.pnotend ((3, Y0) :: Y'.enumFrom 4)) =
        .ok (some v, []) := by
      rw [runP_pnotend_cons (g3 + 1) 3 Y0 _ hY0, hYv]
    have hP3 : runP (g3 + 3) (.pinternal (some (2, ' ')) ((3, Y0) :: Y'.enumFrom 4)) =
        .ok (some v, []) := by
      rw [runP_pinternal_space, hP2]
    have hP4 : runP (g3 + 4) (.pparse (some (2, ' ')) ((3, Y0) :: Y'.enumFrom 4)) =
        .ok (some v, []) :=
      runP_pparse_ok (g3 + 3) _ _ _ _ hP3
    have hD : runP (g3 + 5)
        (.pdiscard ((1, '_') :: (2, ' ') :: (3, Y0) :: Y'.enumFrom 4)) =
        .ok (none, []) := by
      rw [runP_discard_step (g3 + 4)
        ((1, '_') :: (2, ' ') :: (3, Y0) :: Y'.enumFrom 4)
        ((3, Y0) :: Y'.enumFrom 4) 2 ' ' v [] hv rfl hP4, runP_pnotend_nil]
    refine ednFromStr_of_pparse '#' ('_' :: ' ' :: Y0 :: Y') .Empty [] ?_
    rw [hg3]
    show runP (g3 + 8) (.pparse (some (0, '#'))
      ((1, '_') :: (2, ' ') :: (3, Y0) :: Y'.enumFrom 4)) = .ok (some .Empty, [])
    have hI : runP (g3 + 7) (.pinternal (some (0, '#'))
        ((1, '_') :: (2, ' ') :: (3, Y0) :: Y'.enumFrom 4)) = .ok (none, []) := by
      rw [runP_pinternal_hash, runP_ptagset_underscore, hD]
    exact runP_pparse_ok (g3 + 7) _ _ _ _ hI

/-- Witness for C8 with the value text `:a` and the input `42`. -/
theorem c8_discard_neutral_witness :
    ednFromStr "#_ :a 42" = .ok (.UInt 42) ∧ ednFromStr "42" = .ok (.UInt 42) ∧
      ednFromStr "#_ :a" = .ok .Empty := by
  have h := c8_discard_neutral ':' '4' ['a'] ['2'] (.Key ":a") (.UInt 42)
    (by decide) (by decide) (by intro h; cases h)
    (fun f hf => by
      obtain ⟨a, rfl⟩ : ∃ a, f = a + 3 := ⟨f - 3, by omega⟩
      rfl)
    (fun f hf => by
      obtain ⟨a, rfl⟩ : ∃ a, f = a + 3 := ⟨f - 3, by omega⟩
      rfl)
    (fun j f hf => by
      obtain ⟨a, rfl⟩ : ∃ a, f = a + 2 := ⟨f - 2, by omega⟩
      exact ⟨[], rfl⟩)
  exact h

/-- Witness for C7 at the spec's own example: `-32rFOObar` gives
`Int (-529280347)`. -/
theorem c7_radix_tokens_witness :
    readNumber '-' ((('3' :: ['2']) ++ 'r' :: "FOObar".data).enumFrom 1 ++ []) =
      .ok (.Int (-529280347), []) := by
  have h := (c7_radix_tokens '3' ['2'] "FOObar".data 1 [] (by decide) (by decide)
      (by decide) (by decide) (by decide) (by decide) rfl).1 (by decide)
  have h2 := h.2 (by decide)
  rw [h2]
  rfl

end EdnRs
